import Mathlib

/-!
Shallow embedding of `iterate_edges.cpp`, the iterative edge-extension core of
the MEGAHIT assembler.  Base symbols are two-bit values 0..3 (A, C, G, T); a
k-mer value is modelled as the list of its base symbols with position 0 the
leftmost base.  Machine words are natural numbers, truncated with an explicit
`% 2 ^ 32` exactly where the 32-bit source arithmetic truncates.
-/

namespace IterateEdges

/-- Modelled from the spec: `Kmer::ShiftAppend` of the fixed-width k-mer class
(declared outside this translation unit) appends a base on the right and
discards the leftmost base.  On the list of base symbols this drops the head
and appends the new base. -/
def shiftAppend (xs : List Nat) (c : Nat) : List Nat := xs.tail ++ [c]

/-- Modelled from the spec: `Kmer::ShiftPreappend` prepends a base on the left
and discards the rightmost base. -/
def shiftPreappend (xs : List Nat) (c : Nat) : List Nat := c :: xs.dropLast

/-- Modelled from the spec: `Kmer::ReverseComplement` reverses the base
sequence and complements every base (base 3 minus it). -/
def revComp (xs : List Nat) : List Nat := (xs.map (fun c => 3 - c)).reverse

/-- Modelled from the spec: `Kmer::resize` keeps the leftmost bases and fills
freed positions with zero bases (unused high bits are zero). -/
def kmerResize (xs : List Nat) (n : Nat) : List Nat :=
  xs.take n ++ List.replicate (n - xs.length) 0

/-- Modelled from the spec: the k-mer total order compares base symbols from
position 0 upward (lexicographic). -/
def kmerLt : List Nat → List Nat → Bool
  | [], [] => false
  | [], _ :: _ => true
  | _ :: _, [] => false
  | a :: as, b :: bs => if a < b then true else if b < a then false else kmerLt as bs

/-- Non-strict version of the k-mer order, used to state canonicity. -/
def kmerLe (a b : List Nat) : Prop := kmerLt a b = true ∨ a = b

/-- Modelled from the spec: inserting into the crucial-k-mer map; the newest
binding shadows older ones (last writer wins). -/
def cmInsert (m : List (List Nat × Nat)) (key : List Nat) (v : Nat) :
    List (List Nat × Nat) := (key, v) :: m

/-- Modelled from the spec: lookup in the crucial-k-mer map. -/
def cmFind : List (List Nat × Nat) → List Nat → Option Nat
  | [], _ => none
  | (k, v) :: rest, key => if key = k then some v else cmFind rest key

/-- Leading k-mer of a contig: a fresh (all-zero) k-mer into which the first
`kmer_k` contig bases are shift-appended (`iterate_edges.cpp` 282-285). -/
def leadKmer (kk : Nat) (c : List Nat) : List Nat :=
  (List.range kk).foldl (fun km j => shiftAppend km (c.getD j 0)) (List.replicate kk 0)

/-- Continuing from the leading k-mer, `kmer_k` complemented bases taken from
the contig tail backwards are shift-appended, which produces the reverse
complement of the trailing suffix k-mer (`iterate_edges.cpp` 295-297). -/
def rcTailKmer (kk : Nat) (c : List Nat) : List Nat :=
  (List.range kk).foldl
    (fun km j => shiftAppend km (3 - c.getD (c.length - 1 - j) 0)) (leadKmer kk c)

/-- Forward extension hint stored with the leading k-mer: bases
`C[kmer_k + j]` packed at bit position `(31 - j) * 2`, length in the low six
bits (`iterate_edges.cpp` 286-291). -/
def hintFwd (kk st : Nat) (c : List Nat) : Nat :=
  let sLen := min st (c.length - kk)
  ((List.range sLen).foldl
    (fun s j => s ||| (c.getD (j + kk) 0) <<< ((31 - j) * 2)) 0) ||| sLen

/-- Hint stored with the reverse-complemented tail k-mer: complemented bases
`3 - C[len - kmer_k - 1 - j]` with the same length tag
(`iterate_edges.cpp` 300-304). -/
def hintRev (kk st : Nat) (c : List Nat) : Nat :=
  let sLen := min st (c.length - kk)
  ((List.range sLen).foldl
    (fun s j => s ||| (3 - c.getD (c.length - kk - 1 - j) 0) <<< ((31 - j) * 2)) 0) ||| sLen

/-- Crucial-k-mer entries contributed by one primary contig
(`iterate_edges.cpp` 277-307): contigs shorter than `kmer_k` are skipped, the
leading k-mer is always stored, and the reverse-complemented tail k-mer is
stored only when the contig is strictly longer than `kmer_k`. -/
def insertCrucial (kk st : Nat) (m : List (List Nat × Nat)) (c : List Nat) :
    List (List Nat × Nat) :=
  if c.length < kk then m
  else
    let m1 := cmInsert m (leadKmer kk c) (hintFwd kk st c)
    if kk < c.length then cmInsert m1 (rcTailKmer kk c) (hintRev kk st c) else m1

/-- The crucial-k-mer map built from the primary contig stream. -/
def buildCrucialMap (kk st : Nat) (contigs : List (List Nat)) :
    List (List Nat × Nat) :=
  contigs.foldl (insertCrucial kk st) []

/-- Multiplicity saturation bound `kMaxMulti_t` (65535). -/
def kMaxMulti : Nat := 65535

/-- Saturating increment of the iterative-edge counter of `key`
(`iterate_edges.cpp` 530-538).  The concurrent hash container itself is not in
this translation unit and is modelled from the spec as a total function
defaulting to zero for absent keys. -/
def incrementEdge (m : List Nat → Nat) (key : List Nat) : List Nat → Nat :=
  fun q => if q = key then (if m key < kMaxMulti then m key + 1 else m key) else m q

/-- Counter state of the iterative-edge map after a sequence of increments
starting from the empty (all-zero) map. -/
def applyIncrements (keys : List (List Nat)) : List Nat → Nat :=
  keys.foldl incrementEdge (fun _ => 0)

/-- Configuration record filled by option parsing.  The field spelled
`output_prefix` in the source is named `output_name` here. -/
structure CmdOptions where
  contigs_file : String
  contigs_multi_file : String
  addi_contig_file : String
  addi_multi_file : String
  read_file : String
  read_format : String
  num_cpu_threads : Int
  kmer_k : Int
  step : Int
  max_read_len : Int
  output_name : String

/-- Validation chain run by `ParseOptions` (`iterate_edges.cpp` 92-112); a
thrown `logic_error` is caught and leads to a usage summary on the error
stream and `exit(1)`.  `maxSize` is the compile-time k-mer capacity
`Kmer<KMER_NUM_UINT64>::max_size()`, modelled from the spec as a parameter. -/
def parseCheck (o : CmdOptions) (maxSize : Int) : Except String Unit :=
  if maxSize ≤ o.step + o.kmer_k then Except.error "kmer_k + step must less than max_size"
  else if o.contigs_file = "" then Except.error "No contig file!"
  else if o.contigs_multi_file = "" then Except.error "No contig's multiplicity file!"
  else if o.read_file = "" then Except.error "No reads file!"
  else if o.kmer_k ≤ 0 then Except.error "Invalid kmer size!"
  else if o.step ≤ 0 then Except.error "Invalid step size!"
  else if o.output_name = "" then Except.error "No output prefix!"
  else if o.read_format ≠ "binary" ∧ o.read_format ≠ "fasta" ∧ o.read_format ≠ "fastq" then
    Except.error "Invalid read format!"
  else if o.max_read_len = 0 then Except.error "Invalid max read length!"
  else Except.ok ()

/-- Inclusive range of integers from `a` to `b` (empty when `b < a`),
used to transcribe the `for` loops whose counters may start below zero. -/
def intsFromTo (a b : Int) : List Int :=
  (List.range (b + 1 - a).toNat).map (fun t : Nat => a + (t : Int))

/-- Bounds-checked write of `true` into the `kmer_exist` vector; the source
indexes `vector<bool>` unchecked, the embedding returns `none` on an
out-of-range index. -/
def setExist (l : List Bool) (i : Int) : Option (List Bool) :=
  if 0 ≤ i ∧ i < l.length then some (l.set i.toNat true) else none

/-- Bounds-checked read character access (`cur_package.CharAt`). -/
def charAt (read : List Nat) (i : Int) : Option Nat :=
  if i < 0 then none else read.get? i.toNat

/-- State of the phase-1 anchor-labeling scan over one read
(`iterate_edges.cpp` 447-455). -/
structure P1State where
  exist : List Bool
  curPos : Nat
  lastMarked : Int
  kmer : List Nat
  rkmer : List Nat
  deriving Repr, DecidableEq

/-- Bounds-checked construction of the initial window k-mer: `kmer_k`
shift-appends of the first read characters (`iterate_edges.cpp` 450-453). -/
def buildKmerGo (read : List Nat) (km : List Nat) (i : Nat) : Nat → Option (List Nat)
  | 0 => some km
  | r + 1 =>
    match read.get? i with
    | none => none
    | some c => buildKmerGo read (shiftAppend km c) (i + 1) r

/-- Forward hint-matching loop (`iterate_edges.cpp` 466-472): while `j` is
below the hint length and `cur_pos + kmer_k + j` is inside the read, compare
the read character with hint base `j`; on match set
`kmer_exist[cur_pos + j + 1]`, on mismatch stop.  Returns the updated vector
and the final `j`.  `rem` counts the remaining hint bases. -/
def fwdHintGo (read : List Nat) (kk sSeq p : Nat) (exist : List Bool) (j : Nat) :
    Nat → Option (List Bool × Nat)
  | 0 => some (exist, j)
  | r + 1 =>
    if h : p + kk + j < read.length then
      if read.get ⟨p + kk + j, h⟩ = (sSeq >>> ((31 - j) * 2)) &&& 3 then
        match setExist exist (p + j + 1) with
        | none => none
        | some e2 => fwdHintGo read kk sSeq p e2 (j + 1) r
      else some (exist, j)
    else some (exist, j)

/-- Backward hint-matching loop of the reverse-complement branch
(`iterate_edges.cpp` 481-487): while `j` is below the hint length and
`cur_pos - 1 - j` is beyond `last_marked_pos`, compare the complemented read
character with hint base `j`; on match set `kmer_exist[cur_pos - 1 - j]`, on
mismatch stop. -/
def revHintGo (read : List Nat) (sSeq : Nat) (p : Nat) (lastMarked : Int)
    (exist : List Bool) (j : Nat) : Nat → Option (List Bool)
  | 0 => some exist
  | r + 1 =>
    if lastMarked < (p : Int) - 1 - j then
      match charAt read ((p : Int) - 1 - j) with
      | none => none
      | some c =>
        if 3 - c = (sSeq >>> ((31 - j) * 2)) &&& 3 then
          match setExist exist ((p : Int) - 1 - j) with
          | none => none
          | some e2 => revHintGo read sSeq p lastMarked e2 (j + 1) r
        else some exist
    else some exist

/-- Window advance to the next probe position (`iterate_edges.cpp` 492-497):
increment `cur_pos` up to `target`, shift-appending each new character into
the forward k-mer and its complement into the reverse k-mer. -/
def advanceGo (read : List Nat) (kk : Nat) (km rk : List Nat) (cur target : Nat) :
    Nat → Option (Nat × List Nat × List Nat)
  | 0 => some (cur, km, rk)
  | r + 1 =>
    if cur < target then
      match read.get? (cur + 1 + kk - 1) with
      | none => none
      | some c =>
        advanceGo read kk (shiftAppend km c) (shiftPreappend rk (3 - c)) (cur + 1) target r
    else some (cur, km, rk)

/-- One body of the phase-1 scan loop at `cur_pos` (`iterate_edges.cpp`
458-489): probe the crucial-k-mer map with the forward window, then with the
reverse-complement window, and propagate hint matches.  Returns the updated
`kmer_exist`, `last_marked_pos` and the next probe position. -/
def p1Body (cm : List (List Nat × Nat)) (kk : Nat) (read : List Nat) (st : P1State) :
    Option (List Bool × Int × Nat) :=
  match st.exist.get? st.curPos with
  | none => none
  | some exC =>
    if exC then some (st.exist, st.lastMarked, st.curPos + 1)
    else
      match cmFind cm st.kmer with
      | some sSeq =>
        (match setExist st.exist st.curPos with
         | none => none
         | some e1 =>
           match fwdHintGo read kk sSeq st.curPos e1 0 (sSeq &&& 63) with
           | none => none
           | some (e2, j) => some (e2, ((st.curPos + j : Nat) : Int), st.curPos + j + 1))
      | none =>
        match cmFind cm st.rkmer with
        | some sSeq =>
          (match setExist st.exist st.curPos with
           | none => none
           | some e1 =>
             match revHintGo read sSeq st.curPos st.lastMarked e1 0 (sSeq &&& 63) with
             | none => none
             | some e2 => some (e2, st.lastMarked, st.curPos + 1))
        | none => some (st.exist, st.lastMarked, st.curPos + 1)

/-- Phase-1 scan loop (`iterate_edges.cpp` 457-501), with explicit fuel for
the outer `while`; running out of fuel reports `none` like a failed bounds
check. -/
def p1Go (cm : List (List Nat × Nat)) (kk : Nat) (read : List Nat) (st : P1State) :
    Nat → Option P1State
  | 0 => none
  | f + 1 =>
    if st.curPos + kk ≤ read.length then
      match p1Body cm kk read st with
      | none => none
      | some (e2, lm2, nextPos) =>
        if nextPos + kk ≤ read.length then
          match advanceGo read kk st.kmer st.rkmer st.curPos nextPos (nextPos - st.curPos) with
          | none => none
          | some (cur2, km2, rk2) =>
            p1Go cm kk read ⟨e2, cur2, lm2, km2, rk2⟩ f
        else some { st with exist := e2, lastMarked := lm2 }
    else some st

/-- Phase 1 for one read: build the initial forward and reverse-complement
window k-mers, then run the scan from position 0 with `last_marked_pos = -1`
(`iterate_edges.cpp` 446-501). -/
def phase1 (cm : List (List Nat × Nat)) (kk : Nat) (read : List Nat) : Option P1State :=
  match buildKmerGo read (List.replicate kk 0) 0 kk with
  | none => none
  | some km =>
    p1Go cm kk read ⟨List.replicate read.length false, 0, -1, km, revComp km⟩
      (read.length + 1)

/-- State of the phase-2 emission scan over one read
(`iterate_edges.cpp` 503-506). -/
structure P2State where
  kmer : List Nat
  rkmer : List Nat
  accExist : Nat
  lastJ : Int
  keys : List (List Nat)
  aligned : Bool
  deriving Repr, DecidableEq

/-- Re-synchronization of the emission window k-mers at `j`
(`iterate_edges.cpp` 510-528): catch up by shift-appending when the gap from
the last emission is small (shift-preappending complements into the reverse
k-mer, transcribed as a second pass over the same characters), recompute the
reverse complement for a medium gap, and rebuild the window from scratch for a
large gap. -/
def resync (read : List Nat) (kk st : Nat) (j : Nat) (km0 rk0 : List Nat) (lastJ : Int) :
    List Nat × List Nat :=
  if (j : Int) - lastJ < 8 then
    ((intsFromTo (lastJ + 1) j).foldl
        (fun km (x : Int) => shiftAppend km (read.getD (x + kk - 1).toNat 0)) km0,
     (intsFromTo (lastJ + 1) j).foldl
        (fun rk (x : Int) => shiftPreappend rk (3 - read.getD (x + kk - 1).toNat 0)) rk0)
  else if (j : Int) - lastJ < kk + st + 1 then
    let km := (intsFromTo (lastJ + 1) j).foldl
        (fun km (x : Int) => shiftAppend km (read.getD (x + kk - 1).toNat 0)) km0
    (km, revComp km)
  else
    let km := (intsFromTo ((j : Int) - st - 1) ((j : Int) + kk - 1)).foldl
        (fun km (x : Int) => shiftAppend km (read.getD x.toNat 0)) km0
    (km, revComp km)

/-- One step of the phase-2 scan at position `j` (`iterate_edges.cpp`
506-541): update the run length of consecutive `kmer_exist` positions and,
when it reaches `step + 2`, emit the canonical key of the current
`(k+s+1)`-window and remember `j` as the last emission. -/
def phase2Step (read : List Nat) (kk st : Nat) (exist : List Bool)
    (s : P2State) (j : Nat) : P2State :=
  let acc := if exist.getD j false then s.accExist + 1 else 0
  if st + 2 ≤ acc then
    let kr := resync read kk st j s.kmer s.rkmer s.lastJ
    let key := if kmerLt kr.1 kr.2 then kr.1 else kr.2
    { kmer := kr.1, rkmer := kr.2, accExist := acc, lastJ := (j : Int),
      keys := s.keys ++ [key], aligned := true }
  else { s with accExist := acc }

/-- Phase-2 scan over all window positions `0 ≤ j ≤ L - kmer_k` of one read,
starting from `acc_exist = 0` and `last_j = -kmer_k`
(`iterate_edges.cpp` 503-542). -/
def phase2 (read : List Nat) (kk st : Nat) (exist : List Bool) (km0 rk0 : List Nat) :
    P2State :=
  (List.range (read.length + 1 - kk)).foldl (phase2Step read kk st exist)
    ⟨km0, rk0, 0, -(kk : Int), [], false⟩

/-- Full processing of one read of sufficient length: phase 1, resize of both
window k-mers to `kmer_k + step + 1`, then phase 2
(`iterate_edges.cpp` 439-548). -/
def processRead (cm : List (List Nat × Nat)) (kk st : Nat) (read : List Nat) :
    Option P2State :=
  match phase1 cm kk read with
  | none => none
  | some s1 =>
    some (phase2 read kk st s1.exist
      (kmerResize s1.kmer (kk + st + 1)) (kmerResize s1.rkmer (kk + st + 1)))

/-- Keys whose counters one read increments during the read pass: none for a
read shorter than `kmer_k + step + 1` (`iterate_edges.cpp` 443-444), otherwise
the canonical keys emitted by phase 2, in emission order. -/
def readKeys (cm : List (List Nat × Nat)) (kk st : Nat) (rd : List Nat) :
    List (List Nat) :=
  if rd.length < kk + st + 1 then []
  else
    match processRead cm kk st rd with
    | none => []
    | some r => r.keys

/-- All keys incremented during the read pass, over all reads in order. -/
def readPassKeys (cm : List (List Nat × Nat)) (kk st : Nat)
    (reads : List (List Nat)) : List (List Nat) :=
  (reads.map (readKeys cm kk st)).flatten

/-- Reads written to `rr.pb` (`iterate_edges.cpp` 552-557): exactly the reads
whose processing set the aligned flag, in encountered order. -/
def readPass (cm : List (List Nat × Nat)) (kk st : Nat)
    (reads : List (List Nat)) : List (List Nat) :=
  reads.filter (fun rd =>
    if rd.length < kk + st + 1 then false
    else
      match processRead cm kk st rd with
      | none => false
      | some r => r.aligned)

/-- Value of a base-`B` digit string, most significant digit first. -/
def baseVal (B : Nat) (l : List Nat) : Nat := l.foldl (fun a d => a * B + d) 0

/-- Value of a packed-edge word array read as one big-endian `32·W`-bit
integer (word 0 most significant). -/
def toNatWords (ws : List Nat) : Nat := baseVal (2 ^ 32) ws

/-- Number of 32-bit words per packed edge, `kWordsPerEdge`
(`iterate_edges.cpp` 246; the constants `kBitsPerEdgeChar = 2` and
`kBitsPerMulti_t = 16` live in a header outside this translation unit and are
modelled from the spec). -/
def wordsPerEdge (n1 : Nat) : Nat := (n1 * 2 + 16 + 31) / 32

/-- Left shift applied to the last partial word of a freshly assembled edge
(`iterate_edges.cpp` 317-319). -/
def lastShift (n1 : Nat) : Nat := (if n1 % 16 = 0 then 0 else 16 - n1 % 16) * 2

/-- Word-accumulation loop of the from-scratch edge assembly over the window
bases taken last base first (`iterate_edges.cpp` 343-353): two bits per base
are shifted into `w`, which is flushed into the next word every 16 bases. -/
def packLoop (digits : List Nat) (ws : List Nat) (w j : Nat) : List Nat × Nat × Nat :=
  match digits with
  | [] => (ws, w, j)
  | c :: rest =>
    let w2 := (w <<< 2) ||| c
    if (j + 1) % 16 = 0 then packLoop rest (ws ++ [w2]) 0 (j + 1)
    else packLoop rest ws w2 (j + 1)

/-- Update of the last element of a word array. -/
def mapLast (f : Nat → Nat) : List Nat → List Nat
  | [] => []
  | [x] => [f x]
  | x :: y :: xs => x :: mapLast f (y :: xs)

/-- From-scratch assembly of the packed edge of window `win` with
multiplicity `m` (`iterate_edges.cpp` 341-355): zero the array, fold the
window bases in starting from the last one, store the left-shifted partial
word, and OR the multiplicity into the last word. -/
def assembleEdge (n1 W : Nat) (win : List Nat) (m : Nat) : List Nat :=
  let t := packLoop win.reverse [] 0 0
  mapLast (fun x => x ||| m)
    (t.1 ++ [t.2.1 <<< lastShift n1] ++ List.replicate (W - (t.1.length + 1)) 0)

/-- Right shift of the whole word array by one base (`iterate_edges.cpp`
362-366): each word is shifted right by two bits and receives the two low
bits of its predecessor in its high bits; the 32-bit left shift truncates. -/
def shiftWordsGo (carry : Nat) : List Nat → List Nat
  | [] => []
  | w :: rest => ((w >>> 2) ||| ((carry <<< 30) % 2 ^ 32)) :: shiftWordsGo w rest

/-- One sliding-window update of the packed edge (`iterate_edges.cpp`
359-369): clear the multiplicity field with XOR, clear the base slot of the
departing base, shift the whole array right by two bits, OR the incoming
base into the top of word 0, and OR the multiplicity back in. -/
def slideEdge (n1 : Nat) (ws : List Nat) (c m : Nat) : List Nat :=
  let ws1 := mapLast (fun x => x ^^^ m) ws
  let i := (n1 - 1) / 16
  let sh := (15 - (n1 - 1) % 16) * 2
  let ws2 := ws1.set i ((ws1.getD i 0) &&& ((3 <<< sh) ^^^ (2 ^ 32 - 1)))
  let ws3 := shiftWordsGo 0 ws2
  let ws4 := ws3.set 0 ((ws3.getD 0 0) ||| ((c <<< 30) % 2 ^ 32))
  mapLast (fun x => x ||| m) ws4

/-- Multiplicity rescaling from k-mer coverage to (k+s+1)-mer coverage
(`iterate_edges.cpp` 325-338); the double-precision arithmetic of the source
is idealized as exact rational arithmetic, and `int(x + 0.5)` on the
non-negative result is the floor of `x + 1/2`. -/
def rescaleMult (kk st L : Nat) (mPrev : ℚ) : Nat :=
  let nextK : ℤ := (kk : ℤ) + st
  let num_kmer : ℤ := (L : ℤ) - kk + 1
  let num_nextk1 : ℤ := (L : ℤ) - (nextK + 1) + 1
  let internal_max : ℤ := min (nextK + 1 - kk + 1) num_nextk1
  let num_external : ℤ := internal_max - 1
  let num_internal : ℤ := num_kmer - num_external * 2
  let exp_num_kmer : ℚ :=
    ((num_external : ℚ) * ((num_external : ℚ) + 1)) / ((nextK + 1 - kk + 1 : ℤ) : ℚ)
      + (internal_max : ℚ) / ((nextK + 1 - kk + 1 : ℤ) : ℚ) * (num_internal : ℚ)
  let exp2 : ℚ := exp_num_kmer * mPrev
  min (Int.toNat ⌊exp2 * (kk : ℚ) / ((nextK + 1 : ℤ) : ℚ) / (num_nextk1 : ℚ) + 1 / 2⌋)
    kMaxMulti

/-- Stated from the spec's words (§4.3): the rescaled multiplicity is
`round(((E·(E+1)/W) + (M/W)·I) · m_k · k / ((k+s+1)·n'))` with
`n_k = L - k + 1`, `n' = L - (k+s+1) + 1`, `W = s + 2`, `M = min(W, n')`,
`E = M - 1`, `I = n_k - 2E`, clamped at `MULTI_MAX`; `round` maps a value to
the floor of the value plus one half. -/
def rescaleSpec (kk st L : Nat) (mPrev : ℚ) : Nat :=
  let W : ℤ := (st : ℤ) + 2
  let nk : ℤ := (L : ℤ) - kk + 1
  let n1 : ℤ := (L : ℤ) - ((kk : ℤ) + st + 1) + 1
  let M : ℤ := min W n1
  let E : ℤ := M - 1
  let I : ℤ := nk - 2 * E
  min kMaxMulti
    (Int.toNat ⌊((E : ℚ) * ((E : ℚ) + 1) / (W : ℚ) + (M : ℚ) / (W : ℚ) * (I : ℚ))
        * mPrev * (kk : ℚ) / ((((kk : ℤ) + st + 1 : ℤ) : ℚ) * (n1 : ℚ)) + 1 / 2⌋)

/-- Successive sliding-window edges of a contig after the first one
(`iterate_edges.cpp` 359-371). -/
def slideRun (n1 : Nat) (e : List Nat) (cs : List Nat) (m : Nat) : List (List Nat) :=
  match cs with
  | [] => []
  | c :: rest =>
    let e2 := slideEdge n1 e c m
    e2 :: slideRun n1 e2 rest m

/-- All packed edges written for one contig with raw multiplicity `mPrev`
(`iterate_edges.cpp` 320-372): nothing if the contig is shorter than
`k+s+1`, otherwise the from-scratch first edge followed by one slid edge per
further contig character. -/
def contigEdges (kk st : Nat) (c : List Nat) (mPrev : ℚ) : List (List Nat) :=
  let n1 := kk + st + 1
  if c.length < n1 then []
  else
    let m := rescaleMult kk st c.length mPrev
    let e0 := assembleEdge n1 (wordsPerEdge n1) (c.take n1) m
    e0 :: slideRun n1 e0 (c.drop n1) m

/-- The 32-bit words appended to `edges.0` for one batch of contigs paired
with their raw multiplicities. -/
def batchEdgeWords (kk st : Nat) (batch : List (List Nat × ℚ)) : List Nat :=
  (batch.map (fun cm => (contigEdges kk st cm.1 cm.2).flatten)).flatten

/-- The 32-bit words appended to `edges.0` by one contig pass
(`iterate_edges.cpp` 264-373): the loop stops at the first empty batch (end
of input), and the two header words `next_k` and `kWordsPerEdge` are written
once, before the edges of the first batch of the primary pass (`isFirst`
starts `true` exactly when the pass is not the additional-contig pass). -/
def contigPassGo (kk st : Nat) : Bool → List (List (List Nat × ℚ)) → List Nat
  | _, [] => []
  | isFirst, b :: bs =>
    if b.isEmpty then []
    else
      (if isFirst then [kk + st, wordsPerEdge (kk + st + 1)] else []) ++
        batchEdgeWords kk st b ++ contigPassGo kk st false bs

/-- Hint base `j` as decoded by the read scan: two bits at position
`(31 - j) * 2` of the stored 64-bit hint. -/
def hintBase (sSeq j : Nat) : Nat := (sSeq >>> ((31 - j) * 2)) &&& 3

/-- Stated from the claim's words (C8): backward marking after a
reverse-complement anchor hit at `p` — for `j = 0..len-1` while
`p - 1 - j > last_marked`, compare hint base `j` against the complemented
read character `3 - C(p - 1 - j)`; on match set `exist[p - 1 - j] = true`,
stop at the first mismatch. -/
def revMarkSpecGo (read : List Nat) (bases : Nat → Nat) (p : Nat) (lastMarked : Int)
    (exist : List Bool) (j : Nat) : Nat → List Bool
  | 0 => exist
  | r + 1 =>
    if lastMarked < (p : Int) - 1 - j then
      if bases j = 3 - read.getD (p - 1 - j) 0 then
        revMarkSpecGo read bases p lastMarked (exist.set (p - 1 - j) true) (j + 1) r
      else exist
    else exist

/-- Backward marking of the reverse-complement anchor branch, stated from the
claim's words, starting at hint index 0 with `len` hint bases. -/
def revMarkSpec (read : List Nat) (bases : Nat → Nat) (len p : Nat) (lastMarked : Int)
    (exist : List Bool) : List Bool :=
  revMarkSpecGo read bases p lastMarked exist 0 len

/-- Multiplicity field of a packed edge: the low 16 bits of its last word. -/
def edgeMult (e : List Nat) : Nat := e.getLastD 0 % 2 ^ 16

/-- The `(k+s+1)`-character window of a sequence starting at position `p`. -/
def window (n1 : Nat) (read : List Nat) (p : Nat) : List Nat := (read.drop p).take n1

/-- Canonical form of a window: the lexicographically smaller of the window
and its reverse complement. -/
def canonKey (w : List Nat) : List Nat := if kmerLt w (revComp w) then w else revComp w

/-! Generic helper lemmas. -/

theorem foldl_mulAdd_init (B : Nat) (l : List Nat) (x : Nat) :
    l.foldl (fun a d => a * B + d) x = x * B ^ l.length + l.foldl (fun a d => a * B + d) 0 := by
  induction l generalizing x with
  | nil => simp
  | cons c cs ih =>
    simp only [List.foldl_cons, List.length_cons, Nat.zero_mul, Nat.zero_add]
    rw [ih (x * B + c), ih c]
    ring

theorem shiftAppend_foldl (cs : List Nat) : ∀ km : List Nat, km ≠ [] →
    cs.foldl shiftAppend km = (km ++ cs).drop cs.length := by
  induction cs with
  | nil => intro km _; simp
  | cons c cs ih =>
    intro km hkm
    obtain ⟨h, t, rfl⟩ := List.exists_cons_of_ne_nil hkm
    simp only [List.foldl_cons]
    have : shiftAppend (h :: t) c = t ++ [c] := by simp [shiftAppend]
    rw [this, ih (t ++ [c]) (by simp)]
    simp [List.append_assoc]

theorem rangeMapGetD (l : List Nat) (m d : Nat) (h : m + d ≤ l.length) :
    (List.range d).map (fun t => l.getD (m + t) 0) = (l.drop m).take d := by
  apply List.ext_getElem
  · simp; omega
  · intro i h1 h2
    simp only [List.getElem_map, List.getElem_range, List.getElem_take, List.getElem_drop]
    exact List.getD_eq_getElem l 0 (by simp at h1; omega)

theorem length_shiftAppend_foldl (cs : List Nat) : ∀ km : List Nat, km ≠ [] →
    (cs.foldl shiftAppend km).length = km.length := by
  intro km hkm
  rw [shiftAppend_foldl cs km hkm]
  simp

theorem revComp_length (xs : List Nat) : (revComp xs).length = xs.length := by
  simp [revComp]

theorem revComp_append (a b : List Nat) : revComp (a ++ b) = revComp b ++ revComp a := by
  simp [revComp]

/-! Lemmas about the crucial-k-mer map. -/

theorem cmFind_cmInsert_self (m : List (List Nat × Nat)) (k : List Nat) (v : Nat) :
    cmFind (cmInsert m k v) k = some v := by
  simp [cmInsert, cmFind]

theorem cmFind_isSome_cmInsert (m : List (List Nat × Nat)) (key k : List Nat) (v : Nat)
    (h : (cmFind m key).isSome = true) : (cmFind (cmInsert m k v) key).isSome = true := by
  by_cases hk : key = k <;> simp [cmInsert, cmFind, hk, h]

theorem cmFind_isSome_insertCrucial (kk st : Nat) (m : List (List Nat × Nat))
    (c key : List Nat) (h : (cmFind m key).isSome = true) :
    (cmFind (insertCrucial kk st m c) key).isSome = true := by
  unfold insertCrucial
  split
  · exact h
  · split
    · exact cmFind_isSome_cmInsert _ _ _ _ (cmFind_isSome_cmInsert _ _ _ _ h)
    · exact cmFind_isSome_cmInsert _ _ _ _ h

theorem cmFind_isSome_foldl (kk st : Nat) (cs : List (List Nat)) :
    ∀ (m : List (List Nat × Nat)) (key : List Nat), (cmFind m key).isSome = true →
      (cmFind (cs.foldl (insertCrucial kk st) m) key).isSome = true := by
  induction cs with
  | nil => intro m key h; exact h
  | cons c cs ih =>
    intro m key h
    exact ih _ _ (cmFind_isSome_insertCrucial kk st m c key h)

theorem leadKmer_eq_take (kk : Nat) (c : List Nat) (h : kk ≤ c.length) :
    leadKmer kk c = c.take kk := by
  cases kk with
  | zero => simp [leadKmer]
  | succ k =>
    unfold leadKmer
    rw [← List.foldl_map (fun j => c.getD j 0) shiftAppend]
    have hm : (List.range (k + 1)).map (fun j => c.getD j 0) = (c.drop 0).take (k + 1) := by
      have := rangeMapGetD c 0 (k + 1) (by omega)
      simpa using this
    rw [hm]
    have hrep : (List.replicate (k + 1) 0 : List Nat) ≠ [] := by simp
    rw [shiftAppend_foldl _ _ hrep]
    simp [List.length_take, Nat.min_eq_left h]

theorem rcTailKmer_eq_revComp (kk : Nat) (c : List Nat) (h1 : 1 ≤ kk) (h : kk ≤ c.length) :
    rcTailKmer kk c = revComp (c.drop (c.length - kk)) := by
  unfold rcTailKmer
  rw [← List.foldl_map (fun j => 3 - c.getD (c.length - 1 - j) 0) shiftAppend]
  have hlead : leadKmer kk c ≠ [] := by
    rw [leadKmer_eq_take kk c h]
    intro hc
    have := congrArg List.length hc
    simp [Nat.min_eq_left h] at this
    omega
  rw [shiftAppend_foldl _ _ hlead]
  have hlen : ((List.range kk).map (fun j => 3 - c.getD (c.length - 1 - j) 0)).length = kk := by
    simp
  have hleadlen : (leadKmer kk c).length = kk := by
    rw [leadKmer_eq_take kk c h]; simp [Nat.min_eq_left h]
  rw [hlen, List.drop_left' hleadlen]
  apply List.ext_getElem
  · simp [revComp]; omega
  · intro i hi1 hi2
    simp only [List.getElem_map, List.getElem_range]
    simp only [revComp, List.getElem_reverse, List.getElem_map, List.getElem_drop]
    rw [List.getD_eq_getElem c 0 (by simp at hi1; omega)]
    simp only [List.length_map, List.length_range] at hi1
    simp only [List.length_map, List.length_drop]
    congr 2
    omega

/-! Claim C4. -/

/-- Claim C4 counterexample: for the primary contig `A` of length exactly
`kmer_k = 1` the reverse complement `T` of its trailing suffix k-mer is not a
key of the crucial-k-mer map (only the leading k-mer `A` is inserted, because
the second insertion requires length strictly greater than `kmer_k`). -/
theorem c4_counterexample :
    (1 : Nat) ≤ ([0] : List Nat).length ∧
      cmFind (buildCrucialMap 1 1 [[0]])
        (revComp (List.drop (([0] : List Nat).length - 1) [0])) = none := by
  constructor
  · decide
  · rfl

/-- Claim C4 (amended): after the primary contig pass, every primary contig of
length at least `kmer_k` has its leading prefix k-mer as a key of the
crucial-k-mer map, and every primary contig of length strictly greater than
`kmer_k` additionally has the reverse complement of its trailing suffix k-mer
as a key; for a contig of length exactly `kmer_k` only the leading key is
inserted. -/
theorem c4_crucial_keys (kk st : Nat) (contigs : List (List Nat)) (c : List Nat)
    (hmem : c ∈ contigs) (hk : 1 ≤ kk) (hlen : kk ≤ c.length) :
    (cmFind (buildCrucialMap kk st contigs) (c.take kk)).isSome = true ∧
      (kk < c.length →
        (cmFind (buildCrucialMap kk st contigs)
          (revComp (c.drop (c.length - kk)))).isSome = true) := by
  obtain ⟨l1, l2, rfl⟩ := List.append_of_mem hmem
  unfold buildCrucialMap
  rw [List.foldl_append, List.foldl_cons]
  have hins : insertCrucial kk st (l1.foldl (insertCrucial kk st) []) c =
      (let m1 := cmInsert (l1.foldl (insertCrucial kk st) []) (leadKmer kk c) (hintFwd kk st c)
       if kk < c.length then cmInsert m1 (rcTailKmer kk c) (hintRev kk st c) else m1) := by
    unfold insertCrucial
    rw [if_neg (by omega)]
  constructor
  · apply cmFind_isSome_foldl
    rw [hins, ← leadKmer_eq_take kk c hlen]
    by_cases hgt : kk < c.length
    · simp only [hgt, if_true]
      apply cmFind_isSome_cmInsert
      rw [cmFind_cmInsert_self]
      rfl
    · simp only [hgt, if_false]
      rw [cmFind_cmInsert_self]
      rfl
  · intro hgt
    apply cmFind_isSome_foldl
    rw [hins, ← rcTailKmer_eq_revComp kk c hk hlen]
    simp only [hgt, if_true]
    rw [cmFind_cmInsert_self]
    rfl

/-- Witness for `c4_crucial_keys` at the contig `AC` with `kmer_k = 1`. -/
theorem c4_crucial_keys_witness :
    (cmFind (buildCrucialMap 1 1 [[0, 1]]) ([0, 1].take 1)).isSome = true ∧
      (1 < ([0, 1] : List Nat).length →
        (cmFind (buildCrucialMap 1 1 [[0, 1]])
          (revComp ([0, 1].drop (([0, 1] : List Nat).length - 1)))).isSome = true) :=
  c4_crucial_keys 1 1 [[0, 1]] [0, 1] (by decide) (by decide) (by decide)

/-! Claim C6. -/

theorem foldl_incrementEdge_le (keys : List (List Nat)) :
    ∀ m : List Nat → Nat, (∀ r, m r ≤ kMaxMulti) →
      ∀ q, keys.foldl incrementEdge m q ≤ kMaxMulti := by
  induction keys with
  | nil => intro m hm q; exact hm q
  | cons k ks ih =>
    intro m hm q
    apply ih
    intro r
    unfold incrementEdge
    split
    · split
      · next h => omega
      · exact hm k
    · exact hm r

/-- Claim C6: after any sequence of saturating increments of the
iterative-edge map, every stored counter is at most `MULTI_MAX = 65535`. -/
theorem c6_saturation (keys : List (List Nat)) (q : List Nat) :
    applyIncrements keys q ≤ kMaxMulti :=
  foldl_incrementEdge_le keys (fun _ => 0) (fun _ => by simp [kMaxMulti]) q

/-! Claim C9. -/

/-- Claim C9 counterexample: a configuration with `step = 30 > 29` (and
`kmer_k = 1`, capacity 64, all required options present) passes the
validation chain, so it is not rejected as a configuration error. -/
theorem c9_counterexample :
    parseCheck ⟨"c", "m", "", "", "r", "fasta", 2, 1, 30, 100, "o"⟩ 64 = Except.ok ()
      ∧ ¬((30 : Int) ≤ 29) := by
  exact ⟨rfl, by decide⟩

/-- Claim C9 (amended): option validation succeeds exactly when
`kmer_k + step` is below the compile-time k-mer capacity, the required file
names are present, `kmer_k` and `step` are positive, the read format is one
of the three recognized ones, and the maximal read length is set; the upper
bound `step ≤ 29` is not enforced. -/
theorem c9_parse_ok_iff (o : CmdOptions) (maxSize : Int) :
    parseCheck o maxSize = Except.ok () ↔
      (o.step + o.kmer_k < maxSize ∧ o.contigs_file ≠ "" ∧ o.contigs_multi_file ≠ ""
        ∧ o.read_file ≠ "" ∧ 0 < o.kmer_k ∧ 0 < o.step ∧ o.output_name ≠ ""
        ∧ (o.read_format = "binary" ∨ o.read_format = "fasta" ∨ o.read_format = "fastq")
        ∧ o.max_read_len ≠ 0) := by
  unfold parseCheck
  split_ifs with h1 h2 h3 h4 h5 h6 h7 h8 h9
  all_goals simp_all [not_or]
  all_goals tauto

/-! Claim C7. -/

/-- Claim C7 counterexample: with an empty primary contig stream (the reader
reports end of input on its first batch) nothing at all is written to
`edges.0`, so the stream does not begin with the two header words. -/
theorem c7_counterexample :
    contigPassGo 1 1 true [] = [] ∧
      ([] : List Nat) ≠ [1 + 1, wordsPerEdge (1 + 1 + 1)] := by
  exact ⟨rfl, by decide⟩

theorem contigPassGo_false (kk st : Nat) (bs : List (List (List Nat × ℚ)))
    (hb : ∀ b ∈ bs, b ≠ []) :
    contigPassGo kk st false bs = (bs.map (batchEdgeWords kk st)).flatten := by
  induction bs with
  | nil => rfl
  | cons b rest ih =>
    have hbne : b ≠ [] := hb b (by simp)
    unfold contigPassGo
    rw [if_neg (by simpa using hbne)]
    simp only [List.map_cons, List.flatten_cons]
    rw [ih (fun x hx => hb x (by simp [hx]))]
    simp

/-- Claim C7 (amended): provided the primary contig stream is non-empty, the
byte stream of `edges.0` produced by the contig passes begins with exactly
the two header words `next_k = k + s` and `kWordsPerEdge`, written once on
the first primary batch, and the rest of the stream consists solely of the
per-contig edges of all batches; a pass over additional contigs emits no
header words at all. -/
theorem c7_header_once (kk st : Nat) (bs : List (List (List Nat × ℚ)))
    (hne : bs ≠ []) (hb : ∀ b ∈ bs, b ≠ []) :
    contigPassGo kk st true bs =
      [kk + st, wordsPerEdge (kk + st + 1)] ++ (bs.map (batchEdgeWords kk st)).flatten ∧
    contigPassGo kk st false bs = (bs.map (batchEdgeWords kk st)).flatten := by
  refine ⟨?_, contigPassGo_false kk st bs hb⟩
  obtain ⟨b, rest, rfl⟩ := List.exists_cons_of_ne_nil hne
  have hbne : b ≠ [] := hb b (by simp)
  unfold contigPassGo
  rw [if_neg (by simpa using hbne)]
  simp only [List.map_cons, List.flatten_cons]
  rw [contigPassGo_false kk st rest (fun x hx => hb x (by simp [hx]))]
  simp

/-- Witness for `c7_header_once` on a single batch holding the contig `ACG`
with multiplicity 1, at `kmer_k = 1`, `step = 1`. -/
theorem c7_header_once_witness :
    contigPassGo 1 1 true [[([0, 1, 2], (1 : ℚ))]] =
      [1 + 1, wordsPerEdge (1 + 1 + 1)] ++
        (([[([0, 1, 2], (1 : ℚ))]].map (batchEdgeWords 1 1)).flatten) ∧
    contigPassGo 1 1 false [[([0, 1, 2], (1 : ℚ))]] =
      (([[([0, 1, 2], (1 : ℚ))]].map (batchEdgeWords 1 1)).flatten) :=
  c7_header_once 1 1 [[([0, 1, 2], (1 : ℚ))]] (by simp) (by simp)

/-! Helper lemmas for the phase-2 emission scan. -/

theorem take_cons_dropLast (a : Nat) (rk : List Nat) (m : Nat) (hm : m ≤ rk.length) :
    (a :: rk.dropLast).take m = (a :: rk).take m := by
  cases m with
  | zero => rfl
  | succ m2 =>
    simp only [List.take_succ_cons]
    rw [List.dropLast_eq_take, List.take_take, Nat.min_eq_left (by omega)]

theorem shiftPreappend_foldl (cs : List Nat) : ∀ rk : List Nat, rk ≠ [] →
    cs.foldl (fun r c => shiftPreappend r (3 - c)) rk =
      ((cs.map (fun c => 3 - c)).reverse ++ rk).take rk.length := by
  induction cs with
  | nil => intro rk _; simp
  | cons c cs ih =>
    intro rk hrk
    have hpos : 1 ≤ rk.length := List.length_pos.mpr hrk
    simp only [List.foldl_cons, List.map_cons, List.reverse_cons]
    have hne : shiftPreappend rk (3 - c) ≠ [] := by simp [shiftPreappend]
    rw [ih _ hne]
    have hlen : (shiftPreappend rk (3 - c)).length = rk.length := by
      simp only [shiftPreappend, List.length_cons, List.length_dropLast]
      omega
    rw [hlen]
    show ((cs.map (fun c => 3 - c)).reverse ++ shiftPreappend rk (3 - c)).take rk.length =
      ((cs.map (fun c => 3 - c)).reverse ++ [3 - c] ++ rk).take rk.length
    rw [List.append_assoc, List.take_append_eq_append_take, List.take_append_eq_append_take]
    congr 1
    show (shiftPreappend rk (3 - c)).take _ = ((3 - c) :: rk).take _
    rw [shiftPreappend]
    exact take_cons_dropLast _ _ _ (by omega)

theorem revComp_revComp (w : List Nat) (hw : ∀ c ∈ w, c ≤ 3) :
    revComp (revComp w) = w := by
  unfold revComp
  rw [List.map_reverse, List.reverse_reverse, List.map_map]
  have : w.map ((fun c => 3 - c) ∘ (fun c => 3 - c)) = w.map id := by
    apply List.map_congr_left
    intro a ha
    have := hw a ha
    simp
    omega
  rw [this, List.map_id]

theorem kmerLt_total (a : List Nat) : ∀ b : List Nat, a.length = b.length →
    kmerLt a b = false → kmerLt b a = true ∨ b = a := by
  induction a with
  | nil =>
    intro b hlen _
    right
    exact (List.eq_nil_of_length_eq_zero hlen.symm)
  | cons x xs ih =>
    intro b hlen hlt
    cases b with
    | nil => simp at hlen
    | cons y ys =>
      unfold kmerLt at hlt ⊢
      by_cases hxy : x < y
      · simp [hxy] at hlt
      · by_cases hyx : y < x
        · simp [hxy, hyx]
        · have hx : x = y := by omega
          subst hx
          simp only [Nat.lt_irrefl, if_false] at hlt ⊢
          rcases ih ys (by simpa using hlen) hlt with h | h
          · left; exact h
          · right; rw [h]

theorem canonKey_canonical (w : List Nat) (hw : ∀ c ∈ w, c ≤ 3) :
    kmerLe (canonKey w) (revComp (canonKey w)) := by
  unfold canonKey
  by_cases h : kmerLt w (revComp w) = true
  · rw [if_pos h]
    exact Or.inl h
  · rw [if_neg h]
    rw [revComp_revComp w hw]
    have hlen : (revComp w).length = w.length := revComp_length w
    rcases kmerLt_total w (revComp w) hlen.symm (by simpa using h) with h2 | h2
    · exact Or.inl h2
    · exact Or.inr h2

theorem intsMap_take (read : List Nat) (a b : Int) (f : Int → Nat) (m d : Nat)
    (hf : ∀ t : Nat, (t : Int) < b + 1 - a → f (a + t) = read.getD (m + t) 0)
    (hd : d = (b + 1 - a).toNat) (hb : m + d ≤ read.length) :
    (intsFromTo a b).map f = (read.drop m).take d := by
  unfold intsFromTo
  rw [List.map_map]
  have hcongr : (List.range (b + 1 - a).toNat).map (f ∘ (fun t : Nat => a + (t : Int))) =
      (List.range (b + 1 - a).toNat).map (fun t : Nat => read.getD (m + t) 0) := by
    apply List.map_congr_left
    intro t ht
    rw [List.mem_range] at ht
    exact hf t (by omega)
  rw [hcongr, ← hd]
  exact rangeMapGetD read m d (by omega)

theorem appendRun_adjacent (read : List Nat) (n1 a0 d : Nat) :
    (((read.drop a0).take n1) ++ ((read.drop (a0 + n1)).take d)).drop d =
      (read.drop (a0 + d)).take n1 := by
  have h1 : (read.drop a0).take n1 ++ ((read.drop (a0 + n1)).take d) =
      (read.drop a0).take (n1 + d) := by
    rw [List.take_add, List.drop_drop]
  rw [h1, List.drop_take]
  rw [List.drop_drop]
  congr 1
  omega

theorem appendRun_flush (read : List Nat) (n1 d : Nat) (km0 : List Nat)
    (hlen : km0.length = n1) (hd : n1 ≤ d) :
    (km0 ++ read.take d).drop d = (read.drop (d - n1)).take n1 := by
  rw [List.drop_append_eq_append_drop, hlen]
  rw [List.drop_eq_nil_of_le (by omega), List.nil_append, List.drop_take]
  congr 1
  omega

/-- Correctness of the three window re-synchronization regimes: at an
emission position `j`, starting from the state left by the previous emission
(or from the initial state), `resync` produces exactly the forward
`(k+s+1)`-window beginning at `j - (s+1)` together with its reverse
complement. -/
theorem resync_eq (read : List Nat) (kk st : Nat) (j : Nat) (km0 rk0 : List Nat)
    (lastJ : Int) (hk : 1 ≤ kk)
    (hkm : km0.length = kk + st + 1) (hrk : rk0.length = kk + st + 1)
    (hj1 : st + 1 ≤ j) (hjL : j + kk ≤ read.length) (hlt : lastJ < (j : Int))
    (hprev : lastJ = -(kk : Int) ∨
      (st + 1 ≤ lastJ ∧ km0 = window (kk + st + 1) read (lastJ.toNat - (st + 1))
        ∧ rk0 = revComp km0)) :
    resync read kk st j km0 rk0 lastJ =
      (window (kk + st + 1) read (j - (st + 1)),
       revComp (window (kk + st + 1) read (j - (st + 1)))) := by
  have hlow : -(kk : Int) ≤ lastJ := by
    rcases hprev with h | h
    · omega
    · omega
  have hkm0ne : km0 ≠ [] := by
    intro hnil
    rw [hnil] at hkm
    simp at hkm
  have hrk0ne : rk0 ≠ [] := by
    intro hnil
    rw [hnil] at hrk
    simp at hrk
  -- the characters appended in the catch-up regimes
  have hcs : (intsFromTo (lastJ + 1) (j : Int)).map
      (fun x : Int => read.getD (x + kk - 1).toNat 0) =
        (read.drop (lastJ + kk).toNat).take ((j : Int) - lastJ).toNat := by
    apply intsMap_take
    · intro t ht
      congr 1
      omega
    · omega
    · omega
  have hcslen : ((read.drop (lastJ + kk).toNat).take ((j : Int) - lastJ).toNat).length =
      ((j : Int) - lastJ).toNat := by
    rw [List.length_take, List.length_drop]
    omega
  -- the common catch-up fold on the forward k-mer
  have hfold : (intsFromTo (lastJ + 1) (j : Int)).foldl
      (fun km (x : Int) => shiftAppend km (read.getD (x + kk - 1).toNat 0)) km0 =
        (km0 ++ (read.drop (lastJ + kk).toNat).take ((j : Int) - lastJ).toNat).drop
          ((j : Int) - lastJ).toNat := by
    rw [← List.foldl_map (fun x : Int => read.getD (x + kk - 1).toNat 0) shiftAppend]
    rw [hcs, shiftAppend_foldl _ _ hkm0ne, hcslen]
  have hkmWindow : (km0 ++ (read.drop (lastJ + kk).toNat).take ((j : Int) - lastJ).toNat).drop
      ((j : Int) - lastJ).toNat = window (kk + st + 1) read (j - (st + 1)) := by
    rcases hprev with hinit | ⟨hjp, hkmw, hrkw⟩
    · rw [hinit]
      have hm : (-(kk : Int) + kk).toNat = 0 := by omega
      have hd : ((j : Int) - -(kk : Int)).toNat = j + kk := by omega
      rw [hm, hd, List.drop_zero]
      rw [appendRun_flush read (kk + st + 1) (j + kk) km0 hkm (by omega)]
      unfold window
      congr 2
      omega
    · have ha0 : (lastJ + kk).toNat = (lastJ.toNat - (st + 1)) + (kk + st + 1) := by omega
      rw [hkmw]
      unfold window
      rw [ha0, appendRun_adjacent read (kk + st + 1) (lastJ.toNat - (st + 1))
        (((j : Int) - lastJ).toNat)]
      congr 2
      omega
  -- the catch-up fold on the reverse k-mer
  have hrkfold : (intsFromTo (lastJ + 1) (j : Int)).foldl
      (fun rk (x : Int) => shiftPreappend rk (3 - read.getD (x + kk - 1).toNat 0)) rk0 =
        revComp (window (kk + st + 1) read (j - (st + 1))) := by
    rw [← List.foldl_map (fun x : Int => read.getD (x + kk - 1).toNat 0)
      (fun rk c => shiftPreappend rk (3 - c))]
    rw [hcs, shiftPreappend_foldl _ _ hrk0ne, hrk]
    rcases hprev with hinit | ⟨hjp, hkmw, hrkw⟩
    · -- initial state: more characters were appended than the k-mer holds
      have hdlen : (((read.drop (lastJ + kk).toNat).take ((j : Int) - lastJ).toNat).map
          (fun c => 3 - c)).reverse.length = ((j : Int) - lastJ).toNat := by
        rw [List.length_reverse, List.length_map, hcslen]
      rw [List.take_append_of_le_length (by rw [hdlen]; omega)]
      rw [List.take_reverse, List.length_map, hcslen, ← List.map_drop]
      rw [List.drop_take, List.drop_drop]
      have hidx1 : (lastJ + (kk : Int)).toNat + (((j : Int) - lastJ).toNat - (kk + st + 1)) =
          j - (st + 1) := by omega
      have hidx2 : ((j : Int) - lastJ).toNat - (((j : Int) - lastJ).toNat - (kk + st + 1)) =
          kk + st + 1 := by omega
      rw [hidx1, hidx2]
      rfl
    · -- continuing from the previous emission window
      rw [hrkw, hkmw]
      unfold revComp
      rw [← List.reverse_append, ← List.map_append]
      rw [List.take_reverse, List.length_map, List.length_append, ← List.map_drop]
      have hwl : (window (kk + st + 1) read (lastJ.toNat - (st + 1))).length = kk + st + 1 := by
        unfold window
        rw [List.length_take, List.length_drop]
        omega
      rw [hwl, hcslen]
      have harith : kk + st + 1 + ((j : Int) - lastJ).toNat - (kk + st + 1) =
          ((j : Int) - lastJ).toNat := by omega
      rw [harith, ← hkmw, hkmWindow]
  unfold resync
  split_ifs with h1 h2
  · -- small gap: catch up on both k-mers
    rw [hfold, hkmWindow, hrkfold]
  · -- medium gap: catch up on the forward k-mer, recompute the reverse one
    show ((intsFromTo (lastJ + 1) (j : Int)).foldl
        (fun km (x : Int) => shiftAppend km (read.getD (x + kk - 1).toNat 0)) km0,
      revComp ((intsFromTo (lastJ + 1) (j : Int)).foldl
        (fun km (x : Int) => shiftAppend km (read.getD (x + kk - 1).toNat 0)) km0)) = _
    rw [hfold, hkmWindow]
  · -- large gap: rebuild the window from scratch
    have hcs3 : (intsFromTo ((j : Int) - st - 1) ((j : Int) + kk - 1)).map
        (fun x : Int => read.getD x.toNat 0) =
          (read.drop (j - (st + 1))).take (kk + st + 1) := by
      apply intsMap_take
      · intro t ht
        congr 1
        omega
      · omega
      · omega
    have e3 : (intsFromTo ((j : Int) - st - 1) ((j : Int) + kk - 1)).foldl
        (fun km (x : Int) => shiftAppend km (read.getD x.toNat 0)) km0 =
          window (kk + st + 1) read (j - (st + 1)) := by
      rw [← List.foldl_map (fun x : Int => read.getD x.toNat 0) shiftAppend]
      rw [hcs3, shiftAppend_foldl _ _ hkm0ne]
      have hlen3 : ((read.drop (j - (st + 1))).take (kk + st + 1)).length = kk + st + 1 := by
        rw [List.length_take, List.length_drop]
        omega
      rw [hlen3, List.drop_left' hkm]
      rfl
    show ((intsFromTo ((j : Int) - st - 1) ((j : Int) + kk - 1)).foldl
        (fun km (x : Int) => shiftAppend km (read.getD x.toNat 0)) km0,
      revComp ((intsFromTo ((j : Int) - st - 1) ((j : Int) + kk - 1)).foldl
        (fun km (x : Int) => shiftAppend km (read.getD x.toNat 0)) km0)) = _
    rw [e3]

theorem window_length (n1 : Nat) (read : List Nat) (p : Nat) (h : p + n1 ≤ read.length) :
    (window n1 read p).length = n1 := by
  unfold window
  rw [List.length_take, List.length_drop]
  omega

theorem window_chars (read : List Nat) (n1 p : Nat) (hchars : ∀ c ∈ read, c ≤ 3) :
    ∀ c ∈ window n1 read p, c ≤ 3 := by
  intro c hc
  exact hchars c (List.drop_subset p read (List.take_subset n1 (read.drop p) hc))

theorem kmerResize_length (xs : List Nat) (n : Nat) : (kmerResize xs n).length = n := by
  unfold kmerResize
  rw [List.length_append, List.length_take, List.length_replicate]
  omega

/-- Invariant of the phase-2 emission fold: the window k-mers keep their
length, the run counter never exceeds the number of processed positions, the
state either precedes the first emission or carries the window of the last
emission, and every emitted key is the canonical form of some in-range
`(k+s+1)`-window of the read. -/
theorem phase2_inv (read : List Nat) (kk st : Nat) (exist : List Bool)
    (km0 rk0 : List Nat) (hk : 1 ≤ kk)
    (hkm : km0.length = kk + st + 1) (hrk : rk0.length = kk + st + 1) :
    ∀ m : Nat, m ≤ read.length + 1 - kk → kk + st + 1 ≤ read.length →
      ((List.range m).foldl (phase2Step read kk st exist)
          ⟨km0, rk0, 0, -(kk : Int), [], false⟩).kmer.length = kk + st + 1 ∧
      ((List.range m).foldl (phase2Step read kk st exist)
          ⟨km0, rk0, 0, -(kk : Int), [], false⟩).rkmer.length = kk + st + 1 ∧
      ((List.range m).foldl (phase2Step read kk st exist)
          ⟨km0, rk0, 0, -(kk : Int), [], false⟩).accExist ≤ m ∧
      (((List.range m).foldl (phase2Step read kk st exist)
          ⟨km0, rk0, 0, -(kk : Int), [], false⟩).lastJ = -(kk : Int) ∨
        (∃ j0 : Nat, st + 1 ≤ j0 ∧ j0 < m ∧
          ((List.range m).foldl (phase2Step read kk st exist)
            ⟨km0, rk0, 0, -(kk : Int), [], false⟩).lastJ = (j0 : Int) ∧
          ((List.range m).foldl (phase2Step read kk st exist)
            ⟨km0, rk0, 0, -(kk : Int), [], false⟩).kmer =
              window (kk + st + 1) read (j0 - (st + 1)) ∧
          ((List.range m).foldl (phase2Step read kk st exist)
            ⟨km0, rk0, 0, -(kk : Int), [], false⟩).rkmer =
              revComp (window (kk + st + 1) read (j0 - (st + 1))))) ∧
      (∀ key ∈ ((List.range m).foldl (phase2Step read kk st exist)
          ⟨km0, rk0, 0, -(kk : Int), [], false⟩).keys,
        ∃ p, p + (kk + st + 1) ≤ read.length ∧
          key = canonKey (window (kk + st + 1) read p)) := by
  intro m
  induction m with
  | zero =>
    intro _ _
    refine ⟨hkm, hrk, by simp, Or.inl rfl, ?_⟩
    intro key hkey
    simp at hkey
  | succ m ih =>
    intro hm hL
    obtain ⟨ih1, ih2, ih3, ih4, ih5⟩ := ih (by omega) hL
    rw [List.range_succ, List.foldl_append, List.foldl_cons, List.foldl_nil]
    set s := (List.range m).foldl (phase2Step read kk st exist)
      ⟨km0, rk0, 0, -(kk : Int), [], false⟩ with hs
    by_cases hemit : st + 2 ≤ (if exist.getD m false then s.accExist + 1 else 0)
    · have hex : exist.getD m false = true := by
        by_cases hex : exist.getD m false = true
        · exact hex
        · rw [if_neg hex] at hemit
          omega
      rw [if_pos hex] at hemit
      have hj1 : st + 1 ≤ m := by clear ih ih4; omega
      have hjL : m + kk ≤ read.length := by clear ih ih4; omega
      have hres : resync read kk st m s.kmer s.rkmer s.lastJ =
          (window (kk + st + 1) read (m - (st + 1)),
           revComp (window (kk + st + 1) read (m - (st + 1)))) := by
        apply resync_eq read kk st m s.kmer s.rkmer s.lastJ hk ih1 ih2 hj1 hjL
        · rcases ih4 with h | ⟨j0, _, hj0m, hlj, _, _⟩
          · rw [h]; omega
          · rw [hlj]; omega
        · rcases ih4 with h | ⟨j0, hj0a, hj0m, hlj, hw, hrw⟩
          · exact Or.inl h
          · right
            have htn : s.lastJ.toNat = j0 := by rw [hlj]; simp
            refine ⟨by rw [hlj]; omega, by rw [htn]; exact hw, by rw [hrw, hw]⟩
      have hstep : phase2Step read kk st exist s m =
          ⟨window (kk + st + 1) read (m - (st + 1)),
           revComp (window (kk + st + 1) read (m - (st + 1))),
           s.accExist + 1, (m : Int),
           s.keys ++ [canonKey (window (kk + st + 1) read (m - (st + 1)))], true⟩ := by
        simp only [phase2Step, hex, eq_self_iff_true, if_true]
        rw [if_pos hemit, hres]
        rfl
      rw [hstep]
      clear hstep hres ih ih4 hemit
      refine ⟨window_length _ _ _ (by omega), ?_, ?_, ?_, ?_⟩
      · show (revComp (window (kk + st + 1) read (m - (st + 1)))).length = kk + st + 1
        rw [revComp_length]
        exact window_length _ _ _ (by omega)
      · show s.accExist + 1 ≤ m + 1
        omega
      · right
        exact ⟨m, hj1, by omega, rfl, rfl, rfl⟩
      · intro key hkey
        rw [List.mem_append] at hkey
        rcases hkey with hold | hnew
        · exact ih5 key hold
        · rw [List.mem_singleton] at hnew
          exact ⟨m - (st + 1), by omega, hnew⟩
    · have hstep : phase2Step read kk st exist s m =
          { s with accExist := (if exist.getD m false then s.accExist + 1 else 0) } := by
        simp only [phase2Step]
        rw [if_neg hemit]
      rw [hstep]
      refine ⟨ih1, ih2, ?_, ?_, ih5⟩
      · show (if exist.getD m false then s.accExist + 1 else 0) ≤ m + 1
        split
        · omega
        · omega
      · rcases ih4 with h | ⟨j0, hj0a, hj0m, hlj, hw, hrw⟩
        · exact Or.inl h
        · right
          exact ⟨j0, hj0a, by omega, hlj, hw, hrw⟩

theorem phase2_keys_canonical (read : List Nat) (kk st : Nat) (exist : List Bool)
    (km0 rk0 : List Nat) (hk : 1 ≤ kk)
    (hkm : km0.length = kk + st + 1) (hrk : rk0.length = kk + st + 1)
    (hL : kk + st + 1 ≤ read.length) (hchars : ∀ c ∈ read, c ≤ 3) :
    ∀ key ∈ (phase2 read kk st exist km0 rk0).keys, kmerLe key (revComp key) := by
  intro key hkey
  obtain ⟨-, -, -, -, h5⟩ := phase2_inv read kk st exist km0 rk0 hk hkm hrk
    (read.length + 1 - kk) (le_refl _) hL
  obtain ⟨p, hp, hkeyeq⟩ := h5 key hkey
  rw [hkeyeq]
  exact canonKey_canonical _ (window_chars read _ p hchars)

/-! Claim C5. -/

/-- Claim C5: every key inserted into the iterative-edge map during the read
pass is canonical, that is, lexicographically at most its own reverse
complement. -/
theorem c5_canonical_keys (cm : List (List Nat × Nat)) (kk st : Nat)
    (reads : List (List Nat)) (key : List Nat) (hk : 1 ≤ kk)
    (hchars : ∀ rd ∈ reads, ∀ c ∈ rd, c ≤ 3)
    (hkey : key ∈ readPassKeys cm kk st reads) :
    kmerLe key (revComp key) := by
  unfold readPassKeys at hkey
  rw [List.mem_flatten] at hkey
  obtain ⟨l, hl, hkeyl⟩ := hkey
  rw [List.mem_map] at hl
  obtain ⟨rd, hrd, rfl⟩ := hl
  unfold readKeys at hkeyl
  by_cases hlen : rd.length < kk + st + 1
  · rw [if_pos hlen] at hkeyl
    simp at hkeyl
  · rw [if_neg hlen] at hkeyl
    cases hpr : processRead cm kk st rd with
    | none =>
      rw [hpr] at hkeyl
      simp at hkeyl
    | some r =>
      rw [hpr] at hkeyl
      unfold processRead at hpr
      cases hp1 : phase1 cm kk rd with
      | none =>
        rw [hp1] at hpr
        simp at hpr
      | some s1 =>
        rw [hp1] at hpr
        simp only [Option.some.injEq] at hpr
        rw [← hpr] at hkeyl
        exact phase2_keys_canonical rd kk st s1.exist _ _ hk
          (kmerResize_length _ _) (kmerResize_length _ _) (by omega)
          (hchars rd hrd) key hkeyl

/-- Witness for `c5_canonical_keys` on the single read `ACG` against the
contig `ACG` with `kmer_k = 1`, `step = 1`. -/
theorem c5_canonical_keys_witness :
    kmerLe [0, 1, 2] (revComp [0, 1, 2]) :=
  c5_canonical_keys (buildCrucialMap 1 1 [[0, 1, 2]]) 1 1 [[0, 1, 2]] [0, 1, 2]
    (by decide) (by decide) (by decide)

/-- Closed form of the phase-2 fold when every window position of the read is
marked: before position `s + 1` nothing has been emitted, and from there on
every position emits the canonical key of its window. -/
theorem phase2_allTrue (read : List Nat) (kk st : Nat) (exist : List Bool)
    (km0 rk0 : List Nat) (hk : 1 ≤ kk)
    (hkm : km0.length = kk + st + 1) (hrk : rk0.length = kk + st + 1)
    (hL : kk + st + 1 ≤ read.length)
    (hall : ∀ j, j + kk ≤ read.length → exist.getD j false = true) :
    ∀ m : Nat, m ≤ read.length + 1 - kk →
      (List.range m).foldl (phase2Step read kk st exist)
          ⟨km0, rk0, 0, -(kk : Int), [], false⟩ =
        if m ≤ st + 1 then ⟨km0, rk0, m, -(kk : Int), [], false⟩
        else ⟨window (kk + st + 1) read (m - 1 - (st + 1)),
              revComp (window (kk + st + 1) read (m - 1 - (st + 1))),
              m, ((m - 1 : Nat) : Int),
              (List.range (m - (st + 1))).map
                (fun p => canonKey (window (kk + st + 1) read p)), true⟩ := by
  intro m
  induction m with
  | zero =>
    intro _
    rw [if_pos (by omega)]
    rfl
  | succ m ih =>
    intro hm
    rw [List.range_succ, List.foldl_append, List.foldl_cons, List.foldl_nil]
    rw [ih (by omega)]
    have hexm : exist.getD m false = true := hall m (by omega)
    by_cases h1 : m + 1 ≤ st + 1
    · rw [if_pos (by omega), if_pos h1]
      simp only [phase2Step, hexm, eq_self_iff_true, if_true]
      rw [if_neg (by omega)]
    · by_cases h2 : m ≤ st + 1
      · -- the first emission, at position m = st + 1
        have hmeq : m = st + 1 := by omega
        rw [if_pos h2, if_neg h1]
        have hres := resync_eq read kk st m km0 rk0 (-(kk : Int)) hk hkm hrk
          (by omega) (by omega) (by omega) (Or.inl rfl)
        simp only [phase2Step, hexm, eq_self_iff_true, if_true]
        rw [if_pos (by omega), hres]
        have e1 : m + 1 - 1 - (st + 1) = m - (st + 1) := by omega
        have e2 : m + 1 - (st + 1) = 1 := by omega
        rw [e1, e2]
        have e3 : m - (st + 1) = 0 := by omega
        rw [e3]
        rfl
      · -- a subsequent emission
        rw [if_neg h2, if_neg h1]
        have hres := resync_eq read kk st m
          (window (kk + st + 1) read (m - 1 - (st + 1)))
          (revComp (window (kk + st + 1) read (m - 1 - (st + 1))))
          ((m - 1 : Nat) : Int) hk
          (window_length _ _ _ (by omega))
          (by rw [revComp_length]; exact window_length _ _ _ (by omega))
          (by omega) (by omega) (by omega)
          (Or.inr ⟨by omega, by simp, rfl⟩)
        simp only [phase2Step, hexm, eq_self_iff_true, if_true]
        rw [if_pos (by omega), hres]
        have e1 : m + 1 - 1 - (st + 1) = m - (st + 1) := by omega
        have e5 : m + 1 - (st + 1) = (m - (st + 1)) + 1 := by omega
        rw [e1, e5, List.range_succ, List.map_append]
        rfl

/-! Claim C1. -/

/-- Claim C1 counterexample: the read `CGTAC` is an exact substring (at
position 3) of the primary contig `AAACGTACGCCC` of length 12, both of
length at least `k+s+1 = 5` (`k = 3`, `s = 1`), yet the read pass leaves it
unaligned, performs no increment at all, and does not write it to `rr.pb`:
none of its window k-mers matches a crucial k-mer, because only contig tips
are indexed. -/
theorem c1_counterexample :
    ([1, 2, 3, 0, 1] : List Nat) =
        (([0, 0, 0, 1, 2, 3, 0, 1, 2, 1, 1, 1] : List Nat).drop 3).take 5 ∧
      3 + 1 + 1 ≤ ([1, 2, 3, 0, 1] : List Nat).length ∧
      3 + 1 + 1 ≤ ([0, 0, 0, 1, 2, 3, 0, 1, 2, 1, 1, 1] : List Nat).length ∧
      (processRead (buildCrucialMap 3 1 [[0, 0, 0, 1, 2, 3, 0, 1, 2, 1, 1, 1]]) 3 1
          [1, 2, 3, 0, 1]).map P2State.aligned = some false ∧
      (processRead (buildCrucialMap 3 1 [[0, 0, 0, 1, 2, 3, 0, 1, 2, 1, 1, 1]]) 3 1
          [1, 2, 3, 0, 1]).map P2State.keys = some [] ∧
      readPass (buildCrucialMap 3 1 [[0, 0, 0, 1, 2, 3, 0, 1, 2, 1, 1, 1]]) 3 1
          [[1, 2, 3, 0, 1]] = [] := by
  refine ⟨rfl, by decide, by decide, ?_, ?_, ?_⟩
  · rfl
  · rfl
  · rfl

/-- Claim C1 (amended): for every read R of length `L ≥ k+s+1` all of whose
window positions phase 1 has labeled as existing (as happens for example
when R spans both tips of a short contig), phase 2 labels R as aligned and
performs exactly `L - (k+s+1) + 1` increments, one per `(k+s+1)`-window of R
in order, each on the canonical key of its window (the read is then written
to `rr.pb`). -/
theorem c1_window_increments (read : List Nat) (kk st : Nat) (exist : List Bool)
    (km0 rk0 : List Nat) (hk : 1 ≤ kk)
    (hkm : km0.length = kk + st + 1) (hrk : rk0.length = kk + st + 1)
    (hL : kk + st + 1 ≤ read.length)
    (hall : ∀ j, j + kk ≤ read.length → exist.getD j false = true) :
    (phase2 read kk st exist km0 rk0).keys =
        (List.range (read.length - (kk + st + 1) + 1)).map
          (fun p => canonKey (window (kk + st + 1) read p)) ∧
      (phase2 read kk st exist km0 rk0).aligned = true ∧
      (phase2 read kk st exist km0 rk0).keys.length =
        read.length - (kk + st + 1) + 1 := by
  have hfold := phase2_allTrue read kk st exist km0 rk0 hk hkm hrk hL hall
    (read.length + 1 - kk) (le_refl _)
  rw [if_neg (by omega)] at hfold
  have hphase : phase2 read kk st exist km0 rk0 =
      (List.range (read.length + 1 - kk)).foldl (phase2Step read kk st exist)
        ⟨km0, rk0, 0, -(kk : Int), [], false⟩ := rfl
  rw [hphase, hfold]
  have ecount : read.length + 1 - kk - (st + 1) = read.length - (kk + st + 1) + 1 := by
    omega
  rw [ecount]
  refine ⟨rfl, rfl, ?_⟩
  rw [List.length_map, List.length_range]

/-- Witness for `c1_window_increments` on the fully marked read `ACG` with
`kmer_k = 1`, `step = 1`. -/
theorem c1_window_increments_witness :
    (phase2 [0, 1, 2] 1 1 [true, true, true] [0, 0, 0] [0, 0, 0]).keys =
        (List.range (3 - (1 + 1 + 1) + 1)).map
          (fun p => canonKey (window (1 + 1 + 1) [0, 1, 2] p)) ∧
      (phase2 [0, 1, 2] 1 1 [true, true, true] [0, 0, 0] [0, 0, 0]).aligned = true ∧
      (phase2 [0, 1, 2] 1 1 [true, true, true] [0, 0, 0] [0, 0, 0]).keys.length =
        3 - (1 + 1 + 1) + 1 :=
  c1_window_increments [0, 1, 2] 1 1 [true, true, true] [0, 0, 0] [0, 0, 0]
    (by decide) (by decide) (by decide) (by decide)
    (by
      intro j hj
      have hj2 : j ≤ 2 := by simp only [List.length_cons, List.length_nil] at hj; omega
      interval_cases j <;> decide)

/-! Helper lemmas for the phase-1 scan. -/

theorem get?_eq_some_getD (l : List Nat) (i : Nat) (h : i < l.length) :
    l.get? i = some (l.getD i 0) := by
  rw [List.getD_eq_getElem l 0 h, List.get?_eq_getElem?, List.getElem?_eq_getElem h]

theorem revMarkSpecGo_length (read : List Nat) (bases : Nat → Nat) (p : Nat)
    (lastMarked : Int) : ∀ rem j (exist : List Bool),
      (revMarkSpecGo read bases p lastMarked exist j rem).length = exist.length := by
  intro rem
  induction rem with
  | zero => intro j exist; rfl
  | succ r ih =>
    intro j exist
    unfold revMarkSpecGo
    split_ifs with h1 h2
    · rw [ih (j + 1) (exist.set (p - 1 - j) true), List.length_set]
    · rfl
    · rfl

theorem revHintGo_eq_spec (read : List Nat) (sSeq : Nat) (p : Nat) (lastMarked : Int)
    (hp : p < read.length) (hlm : -1 ≤ lastMarked) :
    ∀ rem j (exist : List Bool), exist.length = read.length →
      revHintGo read sSeq p lastMarked exist j rem =
        some (revMarkSpecGo read (hintBase sSeq) p lastMarked exist j rem) := by
  intro rem
  induction rem with
  | zero => intro j exist _; rfl
  | succ r ih =>
    intro j exist hlen
    unfold revHintGo revMarkSpecGo
    by_cases hcond : lastMarked < (p : Int) - 1 - j
    · rw [if_pos hcond, if_pos hcond]
      have hidx : ((p : Int) - 1 - j).toNat = p - 1 - j := by omega
      have hc : charAt read ((p : Int) - 1 - j) = some (read.getD (p - 1 - j) 0) := by
        unfold charAt
        rw [if_neg (by omega), hidx]
        exact get?_eq_some_getD read (p - 1 - j) (by omega)
      simp only [hc]
      by_cases hmatch : 3 - read.getD (p - 1 - j) 0 = (sSeq >>> ((31 - j) * 2)) &&& 3
      · rw [if_pos hmatch,
          if_pos (show hintBase sSeq j = 3 - read.getD (p - 1 - j) 0 from hmatch.symm)]
        have hset : setExist exist ((p : Int) - 1 - j) =
            some (exist.set (p - 1 - j) true) := by
          unfold setExist
          rw [if_pos (by constructor <;> omega), hidx]
        simp only [hset]
        exact ih (j + 1) (exist.set (p - 1 - j) true) (by rw [List.length_set]; exact hlen)
      · rw [if_neg hmatch,
          if_neg (show ¬hintBase sSeq j = 3 - read.getD (p - 1 - j) 0 from
            fun h => hmatch h.symm)]
    · rw [if_neg hcond, if_neg hcond]

theorem fwdHintGo_some (read : List Nat) (kk sSeq p : Nat) (hk : 1 ≤ kk) :
    ∀ rem j (exist : List Bool), exist.length = read.length →
      ∃ e2 jf, fwdHintGo read kk sSeq p exist j rem = some (e2, jf) ∧
        e2.length = read.length := by
  intro rem
  induction rem with
  | zero => intro j exist hlen; exact ⟨exist, j, rfl, hlen⟩
  | succ r ih =>
    intro j exist hlen
    unfold fwdHintGo
    by_cases hin : p + kk + j < read.length
    · rw [dif_pos hin]
      by_cases hmatch : read.get ⟨p + kk + j, hin⟩ = (sSeq >>> ((31 - j) * 2)) &&& 3
      · rw [if_pos hmatch]
        have hset : setExist exist ((p : Int) + j + 1) =
            some (exist.set (p + j + 1) true) := by
          unfold setExist
          rw [if_pos (by constructor <;> omega)]
          congr 1
        simp only [hset]
        exact ih (j + 1) (exist.set (p + j + 1) true) (by rw [List.length_set]; exact hlen)
      · rw [if_neg hmatch]
        exact ⟨exist, j, rfl, hlen⟩
    · rw [dif_neg hin]
      exact ⟨exist, j, rfl, hlen⟩

theorem advanceGo_some (read : List Nat) (kk : Nat) (target : Nat)
    (htL : target + kk ≤ read.length) (hk : 1 ≤ kk) :
    ∀ rem cur (km rk : List Nat), cur + rem = target →
      ∃ km2 rk2, advanceGo read kk km rk cur target rem = some (target, km2, rk2) := by
  intro rem
  induction rem with
  | zero =>
    intro cur km rk hct
    refine ⟨km, rk, ?_⟩
    have hcur : cur = target := by omega
    rw [hcur]
    rfl
  | succ r ih =>
    intro cur km rk hct
    unfold advanceGo
    rw [if_pos (by omega)]
    have hget : read.get? (cur + 1 + kk - 1) = some (read.getD (cur + 1 + kk - 1) 0) :=
      get?_eq_some_getD read _ (by omega)
    simp only [hget]
    exact ih (cur + 1) _ _ (by omega)

theorem p1Body_some (cm : List (List Nat × Nat)) (kk : Nat) (read : List Nat)
    (s : P1State) (hk : 1 ≤ kk) (hlen : s.exist.length = read.length)
    (hpos : s.curPos + kk ≤ read.length) (hlm : -1 ≤ s.lastMarked) :
    ∃ e2 lm2 nextPos, p1Body cm kk read s = some (e2, lm2, nextPos) ∧
      e2.length = read.length ∧ -1 ≤ lm2 ∧ s.curPos < nextPos := by
  have hcur : s.curPos < read.length := by omega
  have hget : s.exist.get? s.curPos = some (s.exist.getD s.curPos false) := by
    rw [List.getD_eq_getElem s.exist false (by omega), List.get?_eq_getElem?,
      List.getElem?_eq_getElem (by omega)]
  unfold p1Body
  simp only [hget]
  by_cases hexc : s.exist.getD s.curPos false = true
  · simp only [hexc, if_true]
    exact ⟨s.exist, s.lastMarked, s.curPos + 1, rfl, hlen, hlm, by omega⟩
  · rw [Bool.not_eq_true] at hexc
    simp only [hexc, Bool.false_eq_true, if_false]
    have hset : setExist s.exist ((s.curPos : Nat) : Int) =
        some (s.exist.set s.curPos true) := by
      unfold setExist
      rw [if_pos (by constructor <;> omega)]
      congr 1
    cases hfwd : cmFind cm s.kmer with
    | some sSeq =>
      simp only [hset]
      obtain ⟨e2, jf, hrun, hlen2⟩ := fwdHintGo_some read kk sSeq s.curPos hk
        (sSeq &&& 63) 0 (s.exist.set s.curPos true) (by rw [List.length_set]; exact hlen)
      simp only [hrun]
      exact ⟨e2, ((s.curPos + jf : Nat) : Int), s.curPos + jf + 1, rfl, hlen2,
        by omega, by omega⟩
    | none =>
      cases hrev : cmFind cm s.rkmer with
      | some sSeq =>
        simp only [hset]
        rw [revHintGo_eq_spec read sSeq s.curPos s.lastMarked hcur hlm
          (sSeq &&& 63) 0 (s.exist.set s.curPos true)
          (by rw [List.length_set]; exact hlen)]
        refine ⟨_, s.lastMarked, s.curPos + 1, rfl, ?_, hlm, by omega⟩
        rw [revMarkSpecGo_length, List.length_set]
        exact hlen
      | none =>
        exact ⟨s.exist, s.lastMarked, s.curPos + 1, rfl, hlen, hlm, by omega⟩

theorem p1Go_isSome (cm : List (List Nat × Nat)) (kk : Nat) (read : List Nat)
    (hk : 1 ≤ kk) :
    ∀ fuel (s : P1State), s.exist.length = read.length →
      s.curPos + kk ≤ read.length → -1 ≤ s.lastMarked →
      read.length + 1 ≤ fuel + s.curPos →
      (p1Go cm kk read s fuel).isSome = true := by
  intro fuel
  induction fuel with
  | zero =>
    intro s _ hpos _ hfuel
    omega
  | succ f ih =>
    intro s hlen hpos hlm hfuel
    unfold p1Go
    rw [if_pos hpos]
    obtain ⟨e2, lm2, nextPos, hbody, hlen2, hlm2, hnext⟩ :=
      p1Body_some cm kk read s hk hlen hpos hlm
    simp only [hbody]
    by_cases hadv : nextPos + kk ≤ read.length
    · rw [if_pos hadv]
      obtain ⟨km2, rk2, hrun⟩ := advanceGo_some read kk nextPos hadv hk
        (nextPos - s.curPos) s.curPos s.kmer s.rkmer (by omega)
      simp only [hrun]
      exact ih ⟨e2, nextPos, lm2, km2, rk2⟩ hlen2 hadv hlm2
        (by show read.length + 1 ≤ f + nextPos; omega)
    · rw [if_neg hadv]
      rfl

theorem buildKmerGo_some (read : List Nat) :
    ∀ rem i (km : List Nat), i + rem ≤ read.length →
      ∃ km2, buildKmerGo read km i rem = some km2 := by
  intro rem
  induction rem with
  | zero => intro i km _; exact ⟨km, rfl⟩
  | succ r ih =>
    intro i km hb
    unfold buildKmerGo
    rw [get?_eq_some_getD read i (by omega)]
    exact ih (i + 1) _ (by omega)

/-! Claim C10. -/

/-- Claim C10: for every read long enough to be processed, every index used
by the phase-1 anchor labeling stays in bounds and the scan terminates, so
the bounds-checked embedding of phase 1 never reaches its out-of-bounds
branch. -/
theorem c10_phase1_in_bounds (cm : List (List Nat × Nat)) (kk st : Nat)
    (read : List Nat) (hk : 1 ≤ kk) (hL : kk + st + 1 ≤ read.length) :
    (phase1 cm kk read).isSome = true := by
  unfold phase1
  obtain ⟨km, hkm⟩ := buildKmerGo_some read kk 0 (List.replicate kk 0) (by omega)
  rw [hkm]
  apply p1Go_isSome cm kk read hk (read.length + 1)
    ⟨List.replicate read.length false, 0, -1, km, revComp km⟩
  · rw [List.length_replicate]
  · show 0 + kk ≤ read.length
    omega
  · show (-1 : Int) ≤ -1
    omega
  · show read.length + 1 ≤ read.length + 1 + 0
    omega

/-- Witness for `c10_phase1_in_bounds` on the read `ACG` with an empty
crucial map and `kmer_k = 1`, `step = 1`. -/
theorem c10_phase1_in_bounds_witness :
    (phase1 [] 1 [0, 1, 2]).isSome = true :=
  c10_phase1_in_bounds [] 1 1 [0, 1, 2] (by decide) (by decide)

/-! Claim C8. -/

/-- Claim C8: in phase-1 anchor labeling, when the forward k-mer at `p` is
absent from the crucial map but the reverse-complement k-mer is present with
hint `sSeq`, the step sets `exist[p] := true`, marks backward exactly as the
claim describes (for `j = 0..len-1` while `p - 1 - j > last_marked`, compare
hint base `j` against `3 - C(p - 1 - j)`, set `exist[p - 1 - j]` on match,
stop at the first mismatch), leaves `last_marked` unchanged, and moves the
probe to `p + 1`. -/
theorem c8_rev_anchor (cm : List (List Nat × Nat)) (kk : Nat) (read : List Nat)
    (s : P1State) (sSeq : Nat) (hk : 1 ≤ kk)
    (hlen : s.exist.length = read.length) (hpos : s.curPos + kk ≤ read.length)
    (hlm : -1 ≤ s.lastMarked)
    (hexf : s.exist.getD s.curPos false = false)
    (hfwd : cmFind cm s.kmer = none)
    (hrev : cmFind cm s.rkmer = some sSeq) :
    p1Body cm kk read s =
      some (revMarkSpec read (hintBase sSeq) (sSeq &&& 63) s.curPos s.lastMarked
          (s.exist.set s.curPos true),
        s.lastMarked, s.curPos + 1) := by
  have hcur : s.curPos < read.length := by omega
  have hget : s.exist.get? s.curPos = some (s.exist.getD s.curPos false) := by
    rw [List.getD_eq_getElem s.exist false (by omega), List.get?_eq_getElem?,
      List.getElem?_eq_getElem (by omega)]
  unfold p1Body
  simp only [hget, hexf, Bool.false_eq_true, if_false]
  have hset : setExist s.exist ((s.curPos : Nat) : Int) =
      some (s.exist.set s.curPos true) := by
    unfold setExist
    rw [if_pos (by constructor <;> omega)]
    congr 1
  simp only [hfwd, hrev, hset]
  rw [revHintGo_eq_spec read sSeq s.curPos s.lastMarked hcur hlm
    (sSeq &&& 63) 0 (s.exist.set s.curPos true) (by rw [List.length_set]; exact hlen)]
  rfl

/-- Witness for `c8_rev_anchor`: at position 0 of the read `AC` the forward
k-mer `A` misses the map while the reverse k-mer `T` hits it. -/
theorem c8_rev_anchor_witness :
    p1Body [([3], 1)] 1 [0, 1] ⟨[false, false], 0, -1, [0], [3]⟩ =
      some (revMarkSpec [0, 1] (hintBase 1) (1 &&& 63) 0 (-1)
          ([false, false].set 0 true),
        -1, 0 + 1) :=
  c8_rev_anchor [([3], 1)] 1 [0, 1] ⟨[false, false], 0, -1, [0], [3]⟩ 1
    (by decide) (by decide) (by decide) (by decide) (by decide) (by decide) (by decide)


/-! Bit-level toolkit for the packed-edge value proofs (claims C2 and C3):
each packed edge is characterised by the value of its word array read as one
big-endian multi-word integer. -/

theorem testBit_split (k a b i : Nat) (hb : b < 2 ^ k) :
    (2 ^ k * a + b).testBit i = if i < k then b.testBit i else a.testBit (i - k) := by
  by_cases hik : i < k
  · rw [if_pos hik]
    simp only [Nat.testBit_to_div_mod]
    have h1 : 2 ^ k * a = 2 ^ i * (2 ^ (k - i) * a) := by
      rw [← Nat.mul_assoc, ← Nat.pow_add]
      congr 2
      omega
    rw [h1, Nat.add_comm, Nat.add_mul_div_left _ _ (Nat.two_pow_pos i)]
    have h2 : 2 ^ (k - i) * a = 2 * (2 ^ (k - i - 1) * a) := by
      rw [← Nat.mul_assoc]
      congr 1
      rw [← Nat.pow_succ']
      congr 1
      omega
    rw [h2, Nat.add_mul_mod_self_left]
  · rw [if_neg hik]
    simp only [Nat.testBit_to_div_mod]
    have h1 : 2 ^ i = 2 ^ k * 2 ^ (i - k) := by
      rw [← Nat.pow_add]
      congr 1
      omega
    rw [h1, ← Nat.div_div_eq_div_mul, Nat.add_comm,
      Nat.add_mul_div_left _ _ (Nat.two_pow_pos k), Nat.div_eq_of_lt hb, Nat.zero_add]

theorem or_eq_add (k a b : Nat) (hb : b < 2 ^ k) : (2 ^ k * a) ||| b = 2 ^ k * a + b := by
  apply Nat.eq_of_testBit_eq
  intro i
  rw [Nat.testBit_lor, testBit_split k a b i hb]
  have hta : (2 ^ k * a).testBit i = if i < k then false else a.testBit (i - k) := by
    have := testBit_split k a 0 i (Nat.two_pow_pos k)
    simpa using this
  rw [hta]
  by_cases hik : i < k
  · simp [hik]
  · have hbi : b.testBit i = false :=
      Nat.testBit_lt_two_pow (lt_of_lt_of_le hb (Nat.pow_le_pow_right (by omega) (by omega)))
    simp [hik, hbi]

theorem xor_clear (u m : Nat) (hm : m < 2 ^ 16) : (2 ^ 16 * u + m) ^^^ m = 2 ^ 16 * u := by
  rw [← or_eq_add 16 u m hm]
  rw [Nat.xor_comm]
  calc m ^^^ (2 ^ 16 * u ||| m) = m ^^^ (m ||| 2 ^ 16 * u) := by rw [Nat.lor_comm]
    _ = 2 ^ 16 * u := by
        apply Nat.eq_of_testBit_eq
        intro i
        rw [Nat.testBit_xor, Nat.testBit_lor]
        have hta : (2 ^ 16 * u).testBit i = if i < 16 then false else u.testBit (i - 16) := by
          have := testBit_split 16 u 0 i (by positivity)
          simpa using this
        rw [hta]
        by_cases hik : i < 16
        · simp [hik]
        · have hmi : m.testBit i = false :=
            Nat.testBit_lt_two_pow (lt_of_lt_of_le hm (Nat.pow_le_pow_right (by omega) (by omega)))
          simp [hik, hmi]

theorem testBit_three (j : Nat) : Nat.testBit 3 j = decide (j < 2) := by
  match j with
  | 0 => rfl
  | 1 => rfl
  | j + 2 =>
    have h4 : (3 : Nat) < 2 ^ (j + 2) := by
      have : (2 : Nat) ^ 2 ≤ 2 ^ (j + 2) := Nat.pow_le_pow_right (by omega) (by omega)
      omega
    simp [Nat.testBit_lt_two_pow h4]

theorem and_mask_clear (sh a d : Nat) (hsh : sh + 2 ≤ 32) (hd : d < 4)
    (hbound : 2 ^ (sh + 2) * a + 2 ^ sh * d < 2 ^ 32) :
    (2 ^ (sh + 2) * a + 2 ^ sh * d) &&& ((3 <<< sh) ^^^ (2 ^ 32 - 1)) =
      2 ^ (sh + 2) * a := by
  have hw_eq : 2 ^ (sh + 2) * a + 2 ^ sh * d = 2 ^ sh * (2 ^ 2 * a + d) := by ring
  have hw : ∀ i, (2 ^ (sh + 2) * a + 2 ^ sh * d).testBit i =
      if i < sh then false else (2 ^ 2 * a + d).testBit (i - sh) := by
    intro i
    rw [hw_eq]
    have := testBit_split sh (2 ^ 2 * a + d) 0 i (Nat.two_pow_pos sh)
    simpa using this
  have hX : ∀ j, (2 ^ 2 * a + d).testBit j =
      if j < 2 then d.testBit j else a.testBit (j - 2) :=
    fun j => testBit_split 2 a d j hd
  have hA : ∀ i, (2 ^ (sh + 2) * a).testBit i =
      if i < sh + 2 then false else a.testBit (i - (sh + 2)) := by
    intro i
    have := testBit_split (sh + 2) a 0 i (Nat.two_pow_pos _)
    simpa using this
  apply Nat.eq_of_testBit_eq
  intro i
  rw [Nat.testBit_land, Nat.testBit_xor, Nat.testBit_shiftLeft,
    Nat.testBit_two_pow_sub_one, testBit_three, hw, hX, hA]
  by_cases h1 : i < sh
  · simp [h1, show i < sh + 2 by omega]
  · by_cases h2 : i < sh + 2
    · simp [h1, h2, show sh ≤ i by omega, show i - sh < 2 by omega, show i < 32 by omega]
    · by_cases h3b : i < 32
      · have hidx : i - sh - 2 = i - (sh + 2) := by omega
        simp [h1, h2, show sh ≤ i by omega, show ¬(i - sh < 2) by omega, h3b, hidx]
      · have hA32 : a.testBit (i - (sh + 2)) = false := by
          apply Nat.testBit_lt_two_pow
          have ha1 : 2 ^ (sh + 2) * a < 2 ^ 32 := by omega
          have ha2 : a < 2 ^ (32 - (sh + 2)) := by
            by_contra hcon
            push_neg at hcon
            have : 2 ^ (sh + 2) * 2 ^ (32 - (sh + 2)) ≤ 2 ^ (sh + 2) * a :=
              Nat.mul_le_mul_left _ hcon
            rw [← Nat.pow_add] at this
            have h32 : sh + 2 + (32 - (sh + 2)) = 32 := by omega
            rw [h32] at this
            omega
          calc a < 2 ^ (32 - (sh + 2)) := ha2
            _ ≤ 2 ^ (i - (sh + 2)) := Nat.pow_le_pow_right (by omega) (by omega)
        simp [h1, h2, show ¬(i - sh < 2) by omega, h3b, hA32]


theorem baseVal_cons (B a : Nat) (l : List Nat) :
    baseVal B (a :: l) = a * B ^ l.length + baseVal B l := by
  simp only [baseVal, List.foldl_cons, Nat.zero_mul, Nat.zero_add]
  exact foldl_mulAdd_init B l a

theorem baseVal_append_single (B x : Nat) (l : List Nat) :
    baseVal B (l ++ [x]) = baseVal B l * B + x := by
  simp [baseVal, List.foldl_append]

theorem toNatWords_cons (a : Nat) (l : List Nat) :
    toNatWords (a :: l) = a * 2 ^ (32 * l.length) + toNatWords l := by
  have h := baseVal_cons (2 ^ 32) a l
  rw [Nat.pow_mul]
  exact h

theorem toNatWords_append (xs ys : List Nat) :
    toNatWords (xs ++ ys) = toNatWords xs * 2 ^ (32 * ys.length) + toNatWords ys := by
  simp only [toNatWords, baseVal, List.foldl_append]
  rw [foldl_mulAdd_init]
  rw [← Nat.pow_mul]

theorem baseVal_lt (B : Nat) (l : List Nat) (_hB : 0 < B) (h : ∀ x ∈ l, x < B) :
    baseVal B l < B ^ l.length := by
  induction l with
  | nil => simp [baseVal]
  | cons a t ih =>
    rw [baseVal_cons]
    have ha : a + 1 ≤ B := h a (by simp)
    have ht : baseVal B t < B ^ t.length := ih (fun x hx => h x (by simp [hx]))
    calc a * B ^ t.length + baseVal B t < a * B ^ t.length + B ^ t.length := by omega
      _ = (a + 1) * B ^ t.length := by ring
      _ ≤ B * B ^ t.length := Nat.mul_le_mul_right _ ha
      _ = B ^ (t.length + 1) := by ring
      _ = B ^ (a :: t).length := by simp

theorem toNatWords_lt (ws : List Nat) (h : ∀ x ∈ ws, x < 2 ^ 32) :
    toNatWords ws < 2 ^ (32 * ws.length) := by
  have := baseVal_lt (2 ^ 32) ws (by positivity) h
  rwa [← Nat.pow_mul] at this

theorem toNatWords_replicate_zero (n : Nat) :
    toNatWords (List.replicate n 0) = 0 := by
  induction n with
  | zero => simp [toNatWords, baseVal]
  | succ k ih =>
    rw [List.replicate_succ, toNatWords_cons, ih]
    simp

theorem mapLast_length (f : Nat → Nat) (l : List Nat) :
    (mapLast f l).length = l.length := by
  induction l with
  | nil => simp [mapLast]
  | cons a t ih =>
    match t with
    | [] => simp [mapLast]
    | b :: u =>
      simp only [mapLast, List.length_cons]
      simpa [mapLast] using ih

theorem mapLast_append_single (f : Nat → Nat) (l : List Nat) (x : Nat) :
    mapLast f (l ++ [x]) = l ++ [f x] := by
  induction l with
  | nil => simp [mapLast]
  | cons a t ih =>
    match t with
    | [] => simp [mapLast]
    | b :: u => simpa [mapLast] using ih

theorem toNatWords_set (ws : List Nat) (i v : Nat) (hi : i < ws.length) :
    toNatWords (ws.set i v) + ws.getD i 0 * 2 ^ (32 * (ws.length - 1 - i)) =
      toNatWords ws + v * 2 ^ (32 * (ws.length - 1 - i)) := by
  induction ws generalizing i with
  | nil => simp at hi
  | cons a t ih =>
    match i with
    | 0 =>
      simp only [List.set_cons_zero, List.getD_cons_zero, List.length_cons,
        Nat.add_sub_cancel, Nat.sub_zero, toNatWords_cons]
      ring
    | i + 1 =>
      have hi2 : i < t.length := by simpa using hi
      simp only [List.set_cons_succ, List.getD_cons_succ, List.length_cons, toNatWords_cons,
        List.length_set]
      have heq : t.length + 1 - 1 - (i + 1) = t.length - 1 - i := by omega
      rw [heq]
      have := ih i hi2
      omega

theorem toNatWords_getD (ws : List Nat) (i : Nat) (hi : i < ws.length)
    (hb : ∀ x ∈ ws, x < 2 ^ 32) :
    ws.getD i 0 = toNatWords ws / 2 ^ (32 * (ws.length - 1 - i)) % 2 ^ 32 := by
  induction ws generalizing i with
  | nil => simp at hi
  | cons a t ih =>
    match i with
    | 0 =>
      simp only [List.getD_cons_zero, List.length_cons, Nat.add_sub_cancel,
        Nat.sub_zero, toNatWords_cons]
      have ht : toNatWords t < 2 ^ (32 * t.length) :=
        toNatWords_lt t (fun x hx => hb x (by simp [hx]))
      rw [mul_comm a, Nat.mul_add_div (by positivity), Nat.div_eq_of_lt ht]
      exact (Nat.mod_eq_of_lt (hb a (by simp))).symm
    | i + 1 =>
      have hi2 : i < t.length := by simpa using hi
      simp only [List.getD_cons_succ, List.length_cons, toNatWords_cons]
      have heq : t.length + 1 - 1 - (i + 1) = t.length - 1 - i := by omega
      rw [heq]
      have hsplit : 32 * t.length = 32 * (i + 1) + 32 * (t.length - 1 - i) := by omega
      rw [hsplit, pow_add, ← mul_assoc, mul_comm (a * 2 ^ (32 * (i + 1))),
        Nat.mul_add_div (by positivity)]
      have h32 : 32 * (i + 1) = 32 + 32 * i := by omega
      rw [h32, pow_add, ← mul_assoc, mul_comm a (2 ^ 32), mul_assoc,
        Nat.mul_add_mod]
      exact ih i hi2 (fun x hx => hb x (by simp [hx]))

theorem toNatWords_inj (xs ys : List Nat) (hlen : xs.length = ys.length)
    (hx : ∀ x ∈ xs, x < 2 ^ 32) (hy : ∀ y ∈ ys, y < 2 ^ 32)
    (hv : toNatWords xs = toNatWords ys) : xs = ys := by
  induction xs generalizing ys with
  | nil =>
    match ys with
    | [] => rfl
    | b :: u => simp at hlen
  | cons a t ih =>
    match ys with
    | [] => simp at hlen
    | b :: u =>
      have hlen2 : t.length = u.length := by simpa using hlen
      rw [toNatWords_cons, toNatWords_cons, hlen2] at hv
      have htb : toNatWords t < 2 ^ (32 * u.length) := by
        rw [← hlen2]
        exact toNatWords_lt t (fun x hx2 => hx x (by simp [hx2]))
      have hub : toNatWords u < 2 ^ (32 * u.length) :=
        toNatWords_lt u (fun x hx2 => hy x (by simp [hx2]))
      have hab : a = b := by
        have h1 : a = (a * 2 ^ (32 * u.length) + toNatWords t) / 2 ^ (32 * u.length) := by
          rw [mul_comm a, Nat.mul_add_div (by positivity), Nat.div_eq_of_lt htb]
          omega
        have h2 : b = (b * 2 ^ (32 * u.length) + toNatWords u) / 2 ^ (32 * u.length) := by
          rw [mul_comm b, Nat.mul_add_div (by positivity), Nat.div_eq_of_lt hub]
          omega
        rw [h1, h2, hv]
      subst hab
      have htu : toNatWords t = toNatWords u := by omega
      rw [ih u hlen2 (fun x hx2 => hx x (by simp [hx2]))
        (fun x hx2 => hy x (by simp [hx2])) htu]

theorem toNatWords_single (x : Nat) : toNatWords [x] = x := by
  simp [toNatWords, baseVal]

theorem toNatWords_concat (front : List Nat) (lst : Nat) :
    toNatWords (front ++ [lst]) = toNatWords front * 2 ^ 32 + lst := by
  rw [toNatWords_append, toNatWords_single]
  simp

theorem pow_mod_pow_sixteen (V d : Nat) (hd : 16 ≤ d) : V * 2 ^ d % 2 ^ 16 = 0 := by
  have h : (2 : Nat) ^ d = 2 ^ (d - 16) * 2 ^ 16 := by
    rw [← pow_add]
    congr 1
    omega
  rw [h, ← mul_assoc, Nat.mul_mod_left]

theorem last_mod_sixteen (front : List Nat) (lst V d m : Nat)
    (hval : toNatWords (front ++ [lst]) = V * 2 ^ d + m)
    (hd : 16 ≤ d) (hm : m < 2 ^ 16) : lst % 2 ^ 16 = m := by
  rw [toNatWords_concat] at hval
  have h0 : V * 2 ^ d % 2 ^ 16 = 0 := pow_mod_pow_sixteen V d hd
  omega

theorem mapLast_or_val (ws : List Nat) (m V d : Nat) (hne : ws ≠ [])
    (hb : ∀ x ∈ ws, x < 2 ^ 32) (hval : toNatWords ws = V * 2 ^ d)
    (hd : 16 ≤ d) (hm : m < 2 ^ 16) :
    (mapLast (fun x => x ||| m) ws).length = ws.length ∧
    (∀ x ∈ mapLast (fun x => x ||| m) ws, x < 2 ^ 32) ∧
    toNatWords (mapLast (fun x => x ||| m) ws) = V * 2 ^ d + m := by
  obtain hnil | ⟨front, lst, rfl⟩ := ws.eq_nil_or_concat
  · exact absurd hnil hne
  rw [List.concat_eq_append] at hb hval ⊢
  have hlst32 : lst < 2 ^ 32 := hb lst (by simp)
  have hlst16 : lst % 2 ^ 16 = 0 := by
    have := last_mod_sixteen front lst V d 0 (by simpa using hval) hd (by positivity)
    simpa using this
  have hrep : 2 ^ 16 * (lst / 2 ^ 16) = lst := by omega
  have hor : lst ||| m = lst + m := by
    have := or_eq_add 16 (lst / 2 ^ 16) m hm
    rw [hrep] at this
    omega
  rw [mapLast_append_single]
  refine ⟨by simp, ?_, ?_⟩
  · intro x hx
    rcases List.mem_append.1 hx with h1 | h1
    · exact hb x (List.mem_append.2 (Or.inl h1))
    · have hx2 : x = lst ||| m := by simpa using h1
      rw [hx2, hor]
      omega
  · rw [toNatWords_concat, hor]
    rw [toNatWords_concat] at hval
    omega

theorem mapLast_xor_val (ws : List Nat) (m V d : Nat) (hne : ws ≠ [])
    (hb : ∀ x ∈ ws, x < 2 ^ 32) (hval : toNatWords ws = V * 2 ^ d + m)
    (hd : 16 ≤ d) (hm : m < 2 ^ 16) :
    (mapLast (fun x => x ^^^ m) ws).length = ws.length ∧
    (∀ x ∈ mapLast (fun x => x ^^^ m) ws, x < 2 ^ 32) ∧
    toNatWords (mapLast (fun x => x ^^^ m) ws) = V * 2 ^ d := by
  obtain hnil | ⟨front, lst, rfl⟩ := ws.eq_nil_or_concat
  · exact absurd hnil hne
  rw [List.concat_eq_append] at hb hval ⊢
  have hlst32 : lst < 2 ^ 32 := hb lst (by simp)
  have hlst16 : lst % 2 ^ 16 = m := last_mod_sixteen front lst V d m hval hd hm
  have hrep : 2 ^ 16 * (lst / 2 ^ 16) + m = lst := by omega
  have hxor : lst ^^^ m = lst - m := by
    have := xor_clear (lst / 2 ^ 16) m hm
    rw [hrep] at this
    omega
  rw [mapLast_append_single]
  refine ⟨by simp, ?_, ?_⟩
  · intro x hx
    rcases List.mem_append.1 hx with h1 | h1
    · exact hb x (List.mem_append.2 (Or.inl h1))
    · have hx2 : x = lst ^^^ m := by simpa using h1
      rw [hx2, hxor]
      omega
  · rw [toNatWords_concat, hxor]
    rw [toNatWords_concat] at hval
    omega

theorem shiftWordsGo_spec (ws : List Nat) (carry : Nat)
    (hb : ∀ x ∈ ws, x < 2 ^ 32) :
    (shiftWordsGo carry ws).length = ws.length ∧
    (∀ x ∈ shiftWordsGo carry ws, x < 2 ^ 32) ∧
    toNatWords (shiftWordsGo carry ws) =
      (carry % 4 * 2 ^ (32 * ws.length) + toNatWords ws) / 4 := by
  induction ws generalizing carry with
  | nil =>
    refine ⟨rfl, by simp [shiftWordsGo], ?_⟩
    simp only [shiftWordsGo, List.length_nil]
    have h0 : toNatWords ([] : List Nat) = 0 := rfl
    have : carry % 4 < 4 := Nat.mod_lt _ (by omega)
    rw [h0]
    simp only [Nat.mul_zero, pow_zero, Nat.mul_one, Nat.add_zero]
    omega
  | cons w rest ih =>
    obtain ⟨ihlen, ihb, ihval⟩ := ih w (fun x hx => hb x (by simp [hx]))
    have hw32 : w < 2 ^ 32 := hb w (by simp)
    have hhead : (w >>> 2) ||| ((carry <<< 30) % 2 ^ 32) = carry % 4 * 2 ^ 30 + w / 4 := by
      have h1 : w >>> 2 = w / 4 := by
        rw [Nat.shiftRight_eq_div_pow]
      have h2 : (carry <<< 30) % 2 ^ 32 = carry % 4 * 2 ^ 30 := by
        rw [Nat.shiftLeft_eq]
        have h3 : (2 : Nat) ^ 32 = 4 * 2 ^ 30 := by norm_num
        rw [h3, Nat.mul_mod_mul_right]
      have h4 : w / 4 < 2 ^ 30 := by omega
      have h5 := or_eq_add 30 (carry % 4) (w / 4) h4
      rw [show (2 : Nat) ^ 30 * (carry % 4) = carry % 4 * 2 ^ 30 from mul_comm _ _] at h5
      rw [h1, h2, Nat.lor_comm]
      exact h5
    refine ⟨?_, ?_, ?_⟩
    · simp only [shiftWordsGo, List.length_cons, ihlen]
    · intro x hx
      simp only [shiftWordsGo, List.mem_cons] at hx
      rcases hx with h1 | h1
      · rw [h1, hhead]
        have : carry % 4 < 4 := Nat.mod_lt _ (by omega)
        omega
      · exact ihb x h1
    · simp only [shiftWordsGo]
      rw [toNatWords_cons, hhead, ihlen, ihval, toNatWords_cons, List.length_cons]
      have hr : toNatWords rest < 2 ^ (32 * rest.length) :=
        toNatWords_lt rest (fun x hx => hb x (by simp [hx]))
      have hsplit1 : carry % 4 * 2 ^ (32 * (rest.length + 1)) =
          4 * (carry % 4 * (2 ^ 30 * 2 ^ (32 * rest.length))) := by
        rw [show 32 * (rest.length + 1) = 2 + (30 + 32 * rest.length) by omega]
        rw [pow_add, pow_add]
        ring
      have hsplit2 : w * 2 ^ (32 * rest.length) =
          4 * (w / 4 * 2 ^ (32 * rest.length)) + w % 4 * 2 ^ (32 * rest.length) := by
        have := Nat.div_add_mod w 4
        calc w * 2 ^ (32 * rest.length)
            = (4 * (w / 4) + w % 4) * 2 ^ (32 * rest.length) := by rw [this]
          _ = 4 * (w / 4 * 2 ^ (32 * rest.length)) + w % 4 * 2 ^ (32 * rest.length) := by ring
      rw [hsplit1, hsplit2]
      rw [show 4 * (carry % 4 * (2 ^ 30 * 2 ^ (32 * rest.length))) +
          (4 * (w / 4 * 2 ^ (32 * rest.length)) + w % 4 * 2 ^ (32 * rest.length) +
            toNatWords rest) =
          (w % 4 * 2 ^ (32 * rest.length) + toNatWords rest) +
          4 * (carry % 4 * (2 ^ 30 * 2 ^ (32 * rest.length)) + w / 4 * 2 ^ (32 * rest.length))
          from by ring]
      rw [Nat.add_mul_div_left _ _ (by omega : (0:Nat) < 4)]
      ring

theorem packLoop_spec (digits : List Nat) (ws : List Nat) (w j : Nat)
    (hd : ∀ c ∈ digits, c < 4) (hws : ∀ x ∈ ws, x < 2 ^ 32)
    (hj : j = 16 * ws.length + j % 16) (hw : w < 4 ^ (j % 16)) :
    (packLoop digits ws w j).2.2 = j + digits.length ∧
    (packLoop digits ws w j).2.2 =
      16 * (packLoop digits ws w j).1.length + (packLoop digits ws w j).2.2 % 16 ∧
    (∀ x ∈ (packLoop digits ws w j).1, x < 2 ^ 32) ∧
    (packLoop digits ws w j).2.1 < 4 ^ ((packLoop digits ws w j).2.2 % 16) ∧
    toNatWords (packLoop digits ws w j).1 * 4 ^ ((packLoop digits ws w j).2.2 % 16) +
        (packLoop digits ws w j).2.1 =
      (toNatWords ws * 4 ^ (j % 16) + w) * 4 ^ digits.length + baseVal 4 digits := by
  induction digits generalizing ws w j with
  | nil =>
    refine ⟨by simp [packLoop], by simpa [packLoop] using hj, by simpa [packLoop] using hws,
      by simpa [packLoop] using hw, ?_⟩
    simp [packLoop, baseVal]
  | cons c rest ih =>
    have hc4 : c < 4 := hd c (by simp)
    have hw2val : (w <<< 2) ||| c = w * 4 + c := by
      have h1 : w <<< 2 = w * 4 := by
        rw [Nat.shiftLeft_eq]
      have h2 := or_eq_add 2 w c hc4
      rw [show (2 : Nat) ^ 2 * w = w * 4 from by ring] at h2
      rw [h1, h2]
    have hjm : j % 16 < 16 := Nat.mod_lt _ (by omega)
    by_cases hc : (j + 1) % 16 = 0
    · have hr : j % 16 = 15 := by omega
      have hw15 : w < 4 ^ 15 := by rw [hr] at hw; exact hw
      have hw2b : w * 4 + c < 2 ^ 32 := by
        have h415 : (4 : Nat) ^ 15 = 1073741824 := by norm_num
        rw [h415] at hw15
        omega
      have hpre1 : ∀ x ∈ ws ++ [w * 4 + c], x < 2 ^ 32 := by
        intro x hx
        rcases List.mem_append.1 hx with h1 | h1
        · exact hws x h1
        · have : x = w * 4 + c := by simpa using h1
          omega
      have hpre2 : j + 1 = 16 * (ws ++ [w * 4 + c]).length + (j + 1) % 16 := by
        simp only [List.length_append, List.length_singleton]
        omega
      have hpre3 : 0 < 4 ^ ((j + 1) % 16) := by positivity
      obtain ⟨i1, i2, i3, i4, i5⟩ := ih (ws ++ [w * 4 + c]) 0 (j + 1) (fun x hx => hd x (by simp [hx])) hpre1 hpre2 hpre3
      simp only [packLoop, hc, if_true, hw2val]
      refine ⟨by rw [i1]; simp; omega, i2, i3, i4, ?_⟩
      rw [i5, toNatWords_concat, baseVal_cons, hc, hr]
      simp only [pow_zero, mul_one, Nat.add_zero, List.length_cons]
      have h232 : (2 : Nat) ^ 32 = 4 ^ 15 * 4 := by norm_num
      rw [h232]
      ring
    · have hr1 : (j + 1) % 16 = j % 16 + 1 := by omega
      have hw2b : w * 4 + c < 4 ^ ((j + 1) % 16) := by
        rw [hr1, pow_succ]
        omega
      have hpre2 : j + 1 = 16 * ws.length + (j + 1) % 16 := by omega
      obtain ⟨i1, i2, i3, i4, i5⟩ := ih ws (w * 4 + c) (j + 1) (fun x hx => hd x (by simp [hx])) hws hpre2 hw2b
      simp only [packLoop, hc, if_false, hw2val]
      refine ⟨by rw [i1]; simp; omega, i2, i3, i4, ?_⟩
      rw [i5, baseVal_cons, hr1]
      simp only [List.length_cons]
      rw [pow_succ]
      ring

theorem wordsPerEdge_bounds (n1 : Nat) :
    2 * n1 + 16 ≤ 32 * wordsPerEdge n1 ∧ 32 * wordsPerEdge n1 ≤ 2 * n1 + 47 := by
  have h := Nat.div_add_mod (n1 * 2 + 16 + 31) 32
  have h2 : (n1 * 2 + 16 + 31) % 32 < 32 := Nat.mod_lt _ (by omega)
  simp only [wordsPerEdge]
  omega

theorem assembleEdge_val (n1 : Nat) (win : List Nat) (m : Nat)
    (hwin : win.length = n1) (hb : ∀ b ∈ win, b < 4) (hm : m < 2 ^ 16) :
    (assembleEdge n1 (wordsPerEdge n1) win m).length = wordsPerEdge n1 ∧
    (∀ x ∈ assembleEdge n1 (wordsPerEdge n1) win m, x < 2 ^ 32) ∧
    toNatWords (assembleEdge n1 (wordsPerEdge n1) win m) =
      baseVal 4 win.reverse * 2 ^ (32 * wordsPerEdge n1 - 2 * n1) + m := by
  obtain ⟨hW1, hW2⟩ := wordsPerEdge_bounds n1
  have hrev : win.reverse.length = n1 := by simpa using hwin
  obtain ⟨i1, i2, i3, i4, i5⟩ := packLoop_spec win.reverse [] 0 0
    (fun x hx => hb x (List.mem_reverse.1 hx)) (by simp) (by simp) (by simp)
  rw [hrev] at i1
  have hj' : (packLoop win.reverse [] 0 0).2.2 = n1 := by omega
  rw [hj'] at i2 i4 i5
  have hval0 : toNatWords (packLoop win.reverse [] 0 0).1 * 4 ^ (n1 % 16) +
      (packLoop win.reverse [] 0 0).2.1 = baseVal 4 win.reverse := by
    rw [i5, hrev]
    have h0 : toNatWords ([] : List Nat) = 0 := rfl
    rw [h0]
    simp
  set t1 := (packLoop win.reverse [] 0 0).1 with ht1
  set pw := (packLoop win.reverse [] 0 0).2.1 with hpw
  have hjm : n1 % 16 < 16 := Nat.mod_lt _ (by omega)
  have hlt : t1.length + 1 ≤ wordsPerEdge n1 := by omega
  set L := baseVal 4 win.reverse with hL
  set z := wordsPerEdge n1 - (t1.length + 1) with hz
  simp only [assembleEdge]
  have hmid : pw <<< lastShift n1 = pw * 2 ^ lastShift n1 := Nat.shiftLeft_eq _ _
  have hmidb : pw * 2 ^ lastShift n1 < 2 ^ 32 ∧
      (toNatWords t1 * 2 ^ 32 + pw * 2 ^ lastShift n1) * 2 ^ (32 * z) =
        L * 2 ^ (32 * wordsPerEdge n1 - 2 * n1) := by
    by_cases hr : n1 % 16 = 0
    · have hls : lastShift n1 = 0 := by simp [lastShift, hr]
      have hpw0 : pw = 0 := by
        rw [hr] at i4
        have : pw < 1 := by simpa using i4
        omega
      have hLt : L = toNatWords t1 := by
        rw [← hval0, hr, hpw0]
        simp
      constructor
      · rw [hpw0]
        simp
      · rw [hpw0, hls, hLt]
        simp only [pow_zero, Nat.zero_mul, Nat.mul_one, Nat.mul_zero, Nat.add_zero]
        rw [mul_assoc, ← pow_add]
        have hexp : 32 + 32 * z = 32 * wordsPerEdge n1 - 2 * n1 := by omega
        rw [hexp]
    · have hls : lastShift n1 = 32 - 2 * (n1 % 16) := by
        simp only [lastShift, hr, if_false]
        omega
      have h4r : (4 : Nat) ^ (n1 % 16) = 2 ^ (2 * (n1 % 16)) := by
        rw [show (4 : Nat) = 2 ^ 2 from rfl, ← pow_mul]
      have hA : (2 : Nat) ^ 32 = 2 ^ (2 * (n1 % 16)) * 2 ^ (32 - 2 * (n1 % 16)) := by
        rw [← pow_add]
        congr 1
        omega
      constructor
      · rw [hls]
        calc pw * 2 ^ (32 - 2 * (n1 % 16)) < 4 ^ (n1 % 16) * 2 ^ (32 - 2 * (n1 % 16)) :=
              mul_lt_mul_of_pos_right i4 (by positivity)
          _ = 2 ^ (2 * (n1 % 16)) * 2 ^ (32 - 2 * (n1 % 16)) := by rw [h4r]
          _ = 2 ^ 32 := by rw [← pow_add]; congr 1; omega
      · rw [hls]
        have hB : toNatWords t1 * 2 ^ 32 + pw * 2 ^ (32 - 2 * (n1 % 16)) =
            (toNatWords t1 * 4 ^ (n1 % 16) + pw) * 2 ^ (32 - 2 * (n1 % 16)) := by
          rw [hA, h4r]
          ring
        rw [hB, hval0, mul_assoc, ← pow_add]
        have hexp : 32 - 2 * (n1 % 16) + 32 * z = 32 * wordsPerEdge n1 - 2 * n1 := by omega
        rw [hexp]
  have hlen1 : (t1 ++ [pw <<< lastShift n1] ++ List.replicate z 0).length = wordsPerEdge n1 := by
    simp only [List.length_append, List.length_singleton, List.length_replicate]
    omega
  have hbd1 : ∀ x ∈ t1 ++ [pw <<< lastShift n1] ++ List.replicate z 0, x < 2 ^ 32 := by
    intro x hx
    rcases List.mem_append.1 hx with h1 | h1
    · rcases List.mem_append.1 h1 with h2 | h2
      · exact i3 x h2
      · have : x = pw <<< lastShift n1 := by simpa using h2
        rw [this, hmid]
        exact hmidb.1
    · have : x = 0 := List.eq_of_mem_replicate h1
      rw [this]
      positivity
  have hval1 : toNatWords (t1 ++ [pw <<< lastShift n1] ++ List.replicate z 0) =
      L * 2 ^ (32 * wordsPerEdge n1 - 2 * n1) := by
    rw [toNatWords_append, toNatWords_replicate_zero, toNatWords_concat, hmid]
    simp only [List.length_replicate, Nat.add_zero]
    exact hmidb.2
  have hd16 : 16 ≤ 32 * wordsPerEdge n1 - 2 * n1 := by omega
  have hne : t1 ++ [pw <<< lastShift n1] ++ List.replicate z 0 ≠ [] := by
    intro hcon
    have := congrArg List.length hcon
    rw [hlen1] at this
    simp at this
    omega
  obtain ⟨o1, o2, o3⟩ := mapLast_or_val (t1 ++ [pw <<< lastShift n1] ++ List.replicate z 0)
    m L (32 * wordsPerEdge n1 - 2 * n1) hne hbd1 hval1 hd16 hm
  exact ⟨by rw [o1, hlen1], o2, o3⟩

set_option maxHeartbeats 1000000 in
theorem slideEdge_val (n1 : Nat) (ws : List Nat) (c m L : Nat) (hn1 : 1 ≤ n1)
    (hlen : ws.length = wordsPerEdge n1) (hb : ∀ x ∈ ws, x < 2 ^ 32)
    (hval : toNatWords ws = L * 2 ^ (32 * wordsPerEdge n1 - 2 * n1) + m)
    (hL : L < 4 ^ n1) (hm : m < 2 ^ 16) (hc : c < 4) :
    (slideEdge n1 ws c m).length = wordsPerEdge n1 ∧
    (∀ x ∈ slideEdge n1 ws c m, x < 2 ^ 32) ∧
    toNatWords (slideEdge n1 ws c m) =
      (L / 4 + c * 4 ^ (n1 - 1)) * 2 ^ (32 * wordsPerEdge n1 - 2 * n1) + m := by
  obtain ⟨hW1, hW2⟩ := wordsPerEdge_bounds n1
  have hdm := Nat.div_add_mod (n1 - 1) 16
  have hrm : (n1 - 1) % 16 < 16 := Nat.mod_lt _ (by omega)
  have hd16 : 16 ≤ 32 * wordsPerEdge n1 - 2 * n1 := by omega
  have hiW : (n1 - 1) / 16 + 1 ≤ wordsPerEdge n1 := by omega
  have hW0 : 0 < wordsPerEdge n1 := by omega
  have hsh30 : (15 - (n1 - 1) % 16) * 2 ≤ 30 := by omega
  have hident : 32 * (wordsPerEdge n1 - 1 - (n1 - 1) / 16) + (15 - (n1 - 1) % 16) * 2 =
      32 * wordsPerEdge n1 - 2 * n1 := by omega
  simp only [slideEdge]
  set sh := (15 - (n1 - 1) % 16) * 2 with hshdef
  set i := (n1 - 1) / 16 with hidef
  set d := 32 * wordsPerEdge n1 - 2 * n1 with hddef
  clear_value sh i d
  -- stage 1: clear the multiplicity
  have hne : ws ≠ [] := by
    intro hcon
    rw [hcon] at hlen
    simp at hlen
    omega
  obtain ⟨e1len, e1b, e1val⟩ := mapLast_xor_val ws m L d hne hb hval hd16 hm
  set ws1 := mapLast (fun x => x ^^^ m) ws with hws1
  clear_value ws1
  rw [hlen] at e1len
  -- the word holding the departing base
  have hilt : i < ws1.length := by omega
  have hgK : ws1.getD i 0 = L % 2 ^ (32 - sh) * 2 ^ sh := by
    rw [toNatWords_getD ws1 i hilt e1b, e1val, e1len]
    have hsplit : (2 : Nat) ^ d = 2 ^ sh * 2 ^ (32 * (wordsPerEdge n1 - 1 - i)) := by
      rw [← pow_add]
      congr 1
      omega
    rw [hsplit, ← mul_assoc,
      Nat.mul_div_cancel _ (by positivity : (0:Nat) < 2 ^ (32 * (wordsPerEdge n1 - 1 - i)))]
    have h32 : (2 : Nat) ^ 32 = 2 ^ (32 - sh) * 2 ^ sh := by
      rw [← pow_add]
      congr 1
      omega
    rw [h32, Nat.mul_mod_mul_right]
  have hgform : ws1.getD i 0 = 2 ^ (sh + 2) * (L % 2 ^ (32 - sh) / 4) + 2 ^ sh * (L % 4) := by
    rw [hgK]
    have hL4 : L % 2 ^ (32 - sh) % 4 = L % 4 :=
      Nat.mod_mod_of_dvd L (by
        have : (4 : Nat) = 2 ^ 2 := rfl
        rw [this]
        exact pow_dvd_pow 2 (by omega))
    have := Nat.div_add_mod (L % 2 ^ (32 - sh)) 4
    calc L % 2 ^ (32 - sh) * 2 ^ sh
        = (4 * (L % 2 ^ (32 - sh) / 4) + L % 2 ^ (32 - sh) % 4) * 2 ^ sh := by rw [this]
      _ = (4 * (L % 2 ^ (32 - sh) / 4) + L % 4) * 2 ^ sh := by rw [hL4]
      _ = 2 ^ (sh + 2) * (L % 2 ^ (32 - sh) / 4) + 2 ^ sh * (L % 4) := by
          rw [pow_add]
          ring
  have hgbound : ws1.getD i 0 < 2 ^ 32 := by
    rw [hgK]
    calc L % 2 ^ (32 - sh) * 2 ^ sh < 2 ^ (32 - sh) * 2 ^ sh :=
          mul_lt_mul_of_pos_right (Nat.mod_lt _ (by positivity)) (by positivity)
      _ = 2 ^ 32 := by rw [← pow_add]; congr 1; omega
  have hcv : ws1.getD i 0 &&& (3 <<< sh ^^^ (2 ^ 32 - 1)) =
      2 ^ (sh + 2) * (L % 2 ^ (32 - sh) / 4) := by
    rw [hgform]
    exact and_mask_clear sh (L % 2 ^ (32 - sh) / 4) (L % 4) (by omega)
      (Nat.mod_lt _ (by omega)) (by rw [← hgform]; exact hgbound)
  -- stage 2: clear the departing base slot
  set ws2 := ws1.set i (ws1.getD i 0 &&& (3 <<< sh ^^^ (2 ^ 32 - 1))) with hws2
  clear_value ws2
  have e2len : ws2.length = wordsPerEdge n1 := by
    rw [hws2, List.length_set, e1len]
  have e2b : ∀ x ∈ ws2, x < 2 ^ 32 := by
    intro x hx
    rw [hws2] at hx
    rcases List.mem_or_eq_of_mem_set hx with h1 | h1
    · exact e1b x h1
    · rw [h1]
      calc ws1.getD i 0 &&& (3 <<< sh ^^^ (2 ^ 32 - 1)) ≤ ws1.getD i 0 := Nat.and_le_left
        _ < 2 ^ 32 := hgbound
  have e2val : toNatWords ws2 = 4 * (L / 4 * 2 ^ d) := by
    rw [hws2]
    have hset := toNatWords_set ws1 i (ws1.getD i 0 &&& (3 <<< sh ^^^ (2 ^ 32 - 1))) hilt
    rw [e1val, e1len] at hset
    have hshK : (2 : Nat) ^ sh * 2 ^ (32 * (wordsPerEdge n1 - 1 - i)) = 2 ^ d := by
      rw [← pow_add]
      congr 1
      omega
    have hgKK : ws1.getD i 0 * 2 ^ (32 * (wordsPerEdge n1 - 1 - i)) =
        2 ^ (sh + 2) * (L % 2 ^ (32 - sh) / 4) * 2 ^ (32 * (wordsPerEdge n1 - 1 - i)) +
          L % 4 * 2 ^ d := by
      calc ws1.getD i 0 * 2 ^ (32 * (wordsPerEdge n1 - 1 - i))
          = (2 ^ (sh + 2) * (L % 2 ^ (32 - sh) / 4) + 2 ^ sh * (L % 4)) *
              2 ^ (32 * (wordsPerEdge n1 - 1 - i)) := by rw [hgform]
        _ = 2 ^ (sh + 2) * (L % 2 ^ (32 - sh) / 4) * 2 ^ (32 * (wordsPerEdge n1 - 1 - i)) +
              L % 4 * (2 ^ sh * 2 ^ (32 * (wordsPerEdge n1 - 1 - i))) := by ring
        _ = _ := by rw [hshK]
    rw [hgKK] at hset
    have hANDK : (ws1.getD i 0 &&& (3 <<< sh ^^^ (2 ^ 32 - 1))) *
        2 ^ (32 * (wordsPerEdge n1 - 1 - i)) =
        2 ^ (sh + 2) * (L % 2 ^ (32 - sh) / 4) * 2 ^ (32 * (wordsPerEdge n1 - 1 - i)) := by
      rw [hcv]
    have hLsplit : L * 2 ^ d = 4 * (L / 4 * 2 ^ d) + L % 4 * 2 ^ d := by
      conv_lhs => rw [← Nat.div_add_mod L 4]
      ring
    omega
  -- stage 3: shift the whole array right by one base
  obtain ⟨e3len, e3b, e3val0⟩ := shiftWordsGo_spec ws2 0 e2b
  set ws3 := shiftWordsGo 0 ws2 with hws3
  clear_value ws3
  rw [e2len] at e3len
  have e3val : toNatWords ws3 = L / 4 * 2 ^ d := by
    rw [e3val0, e2val]
    simp only [Nat.zero_mod, Nat.zero_mul, Nat.zero_add]
    exact Nat.mul_div_cancel_left _ (by omega)
  -- stage 4: put the incoming base into the top of word 0
  have h0lt : 0 < ws3.length := by omega
  have hL4b : L / 4 < 4 ^ (n1 - 1) := by
    rw [Nat.div_lt_iff_lt_mul (by omega : (0:Nat) < 4)]
    calc L < 4 ^ n1 := hL
      _ = 4 ^ (n1 - 1) * 4 := by
          rw [← pow_succ]
          congr 1
          omega
  have h4n1 : (4 : Nat) ^ (n1 - 1) = 2 ^ (2 * (n1 - 1)) := by
    rw [show (4 : Nat) = 2 ^ 2 from rfl, ← pow_mul]
  have hws3top : toNatWords ws3 < 2 ^ 30 * 2 ^ (32 * (ws3.length - 1 - 0)) := by
    rw [e3val, e3len]
    calc L / 4 * 2 ^ d < 4 ^ (n1 - 1) * 2 ^ d :=
          mul_lt_mul_of_pos_right hL4b (by positivity)
      _ = 2 ^ (2 * (n1 - 1)) * 2 ^ d := by rw [h4n1]
      _ ≤ 2 ^ 30 * 2 ^ (32 * (wordsPerEdge n1 - 1 - 0)) := by
          rw [← pow_add, ← pow_add]
          exact Nat.pow_le_pow_right (by omega) (by omega)
  have hg0 : ws3.getD 0 0 < 2 ^ 30 := by
    rw [toNatWords_getD ws3 0 h0lt e3b]
    have hdivlt : toNatWords ws3 / 2 ^ (32 * (ws3.length - 1 - 0)) < 2 ^ 30 := by
      rw [Nat.div_lt_iff_lt_mul (by positivity)]
      calc toNatWords ws3 < 2 ^ 30 * 2 ^ (32 * (ws3.length - 1 - 0)) := hws3top
        _ = 2 ^ 30 * 2 ^ (32 * (ws3.length - 1 - 0)) := rfl
    calc toNatWords ws3 / 2 ^ (32 * (ws3.length - 1 - 0)) % 2 ^ 32
        ≤ toNatWords ws3 / 2 ^ (32 * (ws3.length - 1 - 0)) := Nat.mod_le _ _
      _ < 2 ^ 30 := hdivlt
  have hcc : c <<< 30 % 2 ^ 32 = c * 2 ^ 30 := by
    rw [Nat.shiftLeft_eq]
    exact Nat.mod_eq_of_lt (by
      calc c * 2 ^ 30 < 4 * 2 ^ 30 := by omega
        _ = 2 ^ 32 := by norm_num)
  have hor0 : ws3.getD 0 0 ||| c <<< 30 % 2 ^ 32 = ws3.getD 0 0 + c * 2 ^ 30 := by
    rw [hcc]
    have h5 := or_eq_add 30 c (ws3.getD 0 0) hg0
    rw [Nat.lor_comm] at h5
    rw [show c * 2 ^ 30 = 2 ^ 30 * c from mul_comm _ _]
    omega
  set ws4 := ws3.set 0 (ws3.getD 0 0 ||| c <<< 30 % 2 ^ 32) with hws4
  clear_value ws4
  have e4len : ws4.length = wordsPerEdge n1 := by
    rw [hws4, List.length_set, e3len]
  have e4b : ∀ x ∈ ws4, x < 2 ^ 32 := by
    intro x hx
    rw [hws4] at hx
    rcases List.mem_or_eq_of_mem_set hx with h1 | h1
    · exact e3b x h1
    · rw [h1, hor0]
      have := hg0
      omega
  have e4val : toNatWords ws4 = (L / 4 + c * 4 ^ (n1 - 1)) * 2 ^ d := by
    rw [hws4]
    have hset := toNatWords_set ws3 0 (ws3.getD 0 0 ||| c <<< 30 % 2 ^ 32) h0lt
    rw [e3val, e3len] at hset
    have hexp30 : (2 : Nat) ^ 30 * 2 ^ (32 * (wordsPerEdge n1 - 1 - 0)) =
        4 ^ (n1 - 1) * 2 ^ d := by
      have he : 30 + 32 * (wordsPerEdge n1 - 1 - 0) = 2 * (n1 - 1) + d := by omega
      rw [h4n1, ← pow_add, he, pow_add]
    have horK : (ws3.getD 0 0 ||| c <<< 30 % 2 ^ 32) * 2 ^ (32 * (wordsPerEdge n1 - 1 - 0)) =
        ws3.getD 0 0 * 2 ^ (32 * (wordsPerEdge n1 - 1 - 0)) + c * 4 ^ (n1 - 1) * 2 ^ d := by
      calc (ws3.getD 0 0 ||| c <<< 30 % 2 ^ 32) * 2 ^ (32 * (wordsPerEdge n1 - 1 - 0))
          = (ws3.getD 0 0 + c * 2 ^ 30) * 2 ^ (32 * (wordsPerEdge n1 - 1 - 0)) := by rw [hor0]
        _ = ws3.getD 0 0 * 2 ^ (32 * (wordsPerEdge n1 - 1 - 0)) +
              c * (2 ^ 30 * 2 ^ (32 * (wordsPerEdge n1 - 1 - 0))) := by ring
        _ = ws3.getD 0 0 * 2 ^ (32 * (wordsPerEdge n1 - 1 - 0)) +
              c * (4 ^ (n1 - 1) * 2 ^ d) := by rw [hexp30]
        _ = ws3.getD 0 0 * 2 ^ (32 * (wordsPerEdge n1 - 1 - 0)) +
              c * 4 ^ (n1 - 1) * 2 ^ d := by ring
    rw [horK] at hset
    have hdist : (L / 4 + c * 4 ^ (n1 - 1)) * 2 ^ d =
        L / 4 * 2 ^ d + c * 4 ^ (n1 - 1) * 2 ^ d := by ring
    omega
  -- stage 5: put the multiplicity back
  have hne4 : ws4 ≠ [] := by
    intro hcon
    rw [hcon] at e4len
    simp at e4len
    omega
  obtain ⟨o1, o2, o3⟩ := mapLast_or_val ws4 m (L / 4 + c * 4 ^ (n1 - 1)) d hne4 e4b e4val hd16 hm
  exact ⟨by rw [o1, e4len], o2, o3⟩

theorem window_head (n1 : Nat) (c : List Nat) (p : Nat) (h1 : 1 ≤ n1)
    (h2 : p < c.length) :
    window n1 c p = c.getD p 0 :: window (n1 - 1) c (p + 1) := by
  obtain ⟨nn, rfl⟩ : ∃ nn, n1 = nn + 1 := ⟨n1 - 1, by omega⟩
  simp only [window, Nat.add_sub_cancel]
  rw [List.drop_eq_getElem_cons h2]
  rw [List.take_succ_cons]
  congr 1
  exact (List.getD_eq_getElem c 0 h2).symm

theorem window_snoc (n1 : Nat) (c : List Nat) (p : Nat) (h2 : p + n1 < c.length) :
    window (n1 + 1) c p = window n1 c p ++ [c.getD (p + n1) 0] := by
  simp only [window]
  rw [List.take_succ]
  congr 1
  have hlt : n1 < (c.drop p).length := by
    rw [List.length_drop]
    omega
  rw [List.getElem?_eq_getElem hlt]
  simp only [Option.toList_some]
  congr 1
  rw [List.getElem_drop]
  exact (List.getD_eq_getElem c 0 (by omega)).symm

theorem window_mem_lt (n1 : Nat) (c : List Nat) (p : Nat) (hb : ∀ b ∈ c, b < 4) :
    ∀ b ∈ window n1 c p, b < 4 := by
  intro b hbmem
  exact hb b (List.mem_of_mem_drop (List.mem_of_mem_take hbmem))

theorem lval_step (n1 : Nat) (c : List Nat) (p : Nat) (h1 : 1 ≤ n1)
    (h2 : p + n1 < c.length) (hb : ∀ b ∈ c, b < 4) :
    baseVal 4 (window n1 c (p + 1)).reverse =
      baseVal 4 (window n1 c p).reverse / 4 + c.getD (p + n1) 0 * 4 ^ (n1 - 1) := by
  have hw1 : window n1 c (p + 1) =
      window (n1 - 1) c (p + 1) ++ [c.getD (p + 1 + (n1 - 1)) 0] := by
    have := window_snoc (n1 - 1) c (p + 1) (by omega)
    rw [show (n1 - 1) + 1 = n1 from by omega] at this
    exact this
  have hw0 : window n1 c p = c.getD p 0 :: window (n1 - 1) c (p + 1) :=
    window_head n1 c p h1 (by omega)
  have hlen : (window (n1 - 1) c (p + 1)).length = n1 - 1 :=
    window_length (n1 - 1) c (p + 1) (by omega)
  have hidx : p + 1 + (n1 - 1) = p + n1 := by omega
  rw [hw1, hw0, hidx]
  rw [List.reverse_append, List.reverse_cons]
  simp only [List.reverse_cons, List.reverse_nil, List.nil_append, List.cons_append,
    List.nil_append]
  rw [baseVal_cons, baseVal_append_single]
  simp only [List.length_reverse, hlen]
  have hcp : c.getD p 0 < 4 := by
    have : p < c.length := by omega
    rw [List.getD_eq_getElem c 0 this]
    exact hb _ (List.getElem_mem _)
  have hdiv : (baseVal 4 (window (n1 - 1) c (p + 1)).reverse * 4 + c.getD p 0) / 4 =
      baseVal 4 (window (n1 - 1) c (p + 1)).reverse := by
    rw [mul_comm, Nat.mul_add_div (by omega : (0:Nat) < 4)]
    have : c.getD p 0 / 4 = 0 := Nat.div_eq_of_lt hcp
    omega
  rw [hdiv]
  omega

theorem slide_step_eq (n1 : Nat) (c : List Nat) (p m : Nat) (hn1 : 1 ≤ n1)
    (hb : ∀ b ∈ c, b < 4) (hm : m < 2 ^ 16) (hp : p + n1 < c.length) :
    slideEdge n1 (assembleEdge n1 (wordsPerEdge n1) (window n1 c p) m)
        (c.getD (p + n1) 0) m =
      assembleEdge n1 (wordsPerEdge n1) (window n1 c (p + 1)) m := by
  have hwlen : (window n1 c p).length = n1 := window_length _ _ _ (by omega)
  have hwb := window_mem_lt n1 c p hb
  obtain ⟨a1, a2, a3⟩ := assembleEdge_val n1 (window n1 c p) m hwlen hwb hm
  have hwlen2 : (window n1 c (p + 1)).length = n1 := window_length _ _ _ (by omega)
  have hwb2 := window_mem_lt n1 c (p + 1) hb
  obtain ⟨b1, b2, b3⟩ := assembleEdge_val n1 (window n1 c (p + 1)) m hwlen2 hwb2 hm
  have hL : baseVal 4 (window n1 c p).reverse < 4 ^ n1 := by
    have := baseVal_lt 4 (window n1 c p).reverse (by omega)
      (fun x hx => hwb x (List.mem_reverse.1 hx))
    rwa [List.length_reverse, hwlen] at this
  have hcnew : c.getD (p + n1) 0 < 4 := by
    rw [List.getD_eq_getElem c 0 (by omega)]
    exact hb _ (List.getElem_mem _)
  obtain ⟨s1, s2, s3⟩ := slideEdge_val n1
    (assembleEdge n1 (wordsPerEdge n1) (window n1 c p) m)
    (c.getD (p + n1) 0) m (baseVal 4 (window n1 c p).reverse) hn1 a1 a2 a3 hL hm hcnew
  apply toNatWords_inj _ _ (by rw [s1, b1]) s2 b2
  rw [s3, b3, lval_step n1 c p hn1 hp hb]

theorem slideRun_window (n1 : Nat) (c : List Nat) (m : Nat) (hn1 : 1 ≤ n1)
    (hb : ∀ b ∈ c, b < 4) (hm : m < 2 ^ 16) :
    ∀ (j q : Nat), q + n1 + j < c.length →
      (slideRun n1 (assembleEdge n1 (wordsPerEdge n1) (window n1 c q) m)
          (c.drop (q + n1)) m).getD j [] =
        assembleEdge n1 (wordsPerEdge n1) (window n1 c (q + 1 + j)) m := by
  intro j
  induction j with
  | zero =>
    intro q hq
    have hq2 : q + n1 < c.length := by omega
    have hdrop : c.drop (q + n1) = c.getD (q + n1) 0 :: c.drop (q + n1 + 1) := by
      rw [List.drop_eq_getElem_cons hq2, List.getD_eq_getElem c 0 hq2]
    rw [hdrop]
    simp only [slideRun, List.getD_cons_zero]
    exact slide_step_eq n1 c q m hn1 hb hm (by omega)
  | succ j ih =>
    intro q hq
    have hq2 : q + n1 < c.length := by omega
    have hdrop : c.drop (q + n1) = c.getD (q + n1) 0 :: c.drop (q + n1 + 1) := by
      rw [List.drop_eq_getElem_cons hq2, List.getD_eq_getElem c 0 hq2]
    rw [hdrop]
    simp only [slideRun, List.getD_cons_succ]
    rw [slide_step_eq n1 c q m hn1 hb hm (by omega)]
    have h1 := ih (q + 1) (by omega)
    rw [show q + 1 + n1 = q + n1 + 1 from by omega] at h1
    rw [show q + 1 + 1 + j = q + 1 + (j + 1) from by omega] at h1
    exact h1

/-- Claim C3: for every contig whose bases are valid two-bit symbols and every
edge position `p` with `p + (k+s+1) ≤ L`, the `p`-th packed edge emitted for
the contig — the first edge assembled from scratch, every later one produced
from its predecessor by the incremental sliding update (clear multiplicity,
clear the vacated base slot, shift the word array right by two bits, OR in the
new base and the multiplicity) — is bit-for-bit the packed edge obtained by
assembling the window at `p` from scratch. -/
theorem c3_sliding_equivalence (kk st p : Nat) (c : List Nat) (mPrev : ℚ)
    (hb : ∀ b ∈ c, b < 4) (hp : p + (kk + st + 1) ≤ c.length) :
    (contigEdges kk st c mPrev).getD p [] =
      assembleEdge (kk + st + 1) (wordsPerEdge (kk + st + 1))
        (window (kk + st + 1) c p) (rescaleMult kk st c.length mPrev) := by
  have hn1 : 1 ≤ kk + st + 1 := by omega
  have hm : rescaleMult kk st c.length mPrev < 2 ^ 16 := by
    have h1 : rescaleMult kk st c.length mPrev ≤ kMaxMulti := by
      simp only [rescaleMult]
      exact min_le_right _ _
    simp only [kMaxMulti] at h1
    omega
  simp only [contigEdges]
  rw [if_neg (by omega : ¬ c.length < kk + st + 1)]
  have htake : c.take (kk + st + 1) = window (kk + st + 1) c 0 := by
    simp [window]
  cases p with
  | zero =>
    rw [List.getD_cons_zero, htake]
  | succ p =>
    rw [List.getD_cons_succ, htake]
    have h1 := slideRun_window (kk + st + 1) c (rescaleMult kk st c.length mPrev)
      hn1 hb hm p 0 (by omega)
    rw [show 0 + (kk + st + 1) = kk + st + 1 from by omega] at h1
    rw [show 0 + 1 + p = p + 1 from by omega] at h1
    exact h1

theorem c3_sliding_equivalence_witness :
    (contigEdges 1 0 [1, 2, 3] 2).getD 1 [] =
      assembleEdge 2 (wordsPerEdge 2) (window 2 [1, 2, 3] 1) (rescaleMult 1 0 3 2) :=
  c3_sliding_equivalence 1 0 1 [1, 2, 3] 2 (by decide) (by decide)

theorem rescaleMult_eq_spec (kk st L : Nat) (mPrev : ℚ) :
    rescaleMult kk st L mPrev = rescaleSpec kk st L mPrev := by
  simp only [rescaleMult, rescaleSpec]
  rw [min_comm]
  congr 3
  rw [show ((kk : ℤ) + st + 1 - kk + 1) = (st : ℤ) + 2 from by ring]
  rw [show ((L : ℤ) - kk + 1 - (min ((st : ℤ) + 2) ((L : ℤ) - ((kk : ℤ) + st + 1) + 1) - 1) * 2)
      = ((L : ℤ) - kk + 1 - 2 * (min ((st : ℤ) + 2) ((L : ℤ) - ((kk : ℤ) + st + 1) + 1) - 1))
      from by ring]
  rw [div_div]

theorem edgeMult_of_val (ws : List Nat) (V d m : Nat) (hne : ws ≠ [])
    (hval : toNatWords ws = V * 2 ^ d + m) (hd : 16 ≤ d) (hm : m < 2 ^ 16) :
    edgeMult ws = m := by
  obtain hnil | ⟨front, lst, rfl⟩ := ws.eq_nil_or_concat
  · exact absurd hnil hne
  rw [List.concat_eq_append] at hval ⊢
  have hlst16 := last_mod_sixteen front lst V d m hval hd hm
  simp only [edgeMult, List.getLastD_concat]
  exact hlst16

theorem slideRun_mem_mult (n1 : Nat) (m : Nat) (hn1 : 1 ≤ n1) (hm : m < 2 ^ 16)
    (cs : List Nat) :
    ∀ (e : List Nat) (L : Nat), (∀ x ∈ cs, x < 4) →
      e.length = wordsPerEdge n1 → (∀ x ∈ e, x < 2 ^ 32) →
      toNatWords e = L * 2 ^ (32 * wordsPerEdge n1 - 2 * n1) + m → L < 4 ^ n1 →
      ∀ e2 ∈ slideRun n1 e cs m, edgeMult e2 = m := by
  induction cs with
  | nil =>
    intro e L hcs hel heb hev hL e2 he2
    simp [slideRun] at he2
  | cons ch rest ih =>
    intro e L hcs hel heb hev hL e2 he2
    have hch : ch < 4 := hcs ch (by simp)
    obtain ⟨s1, s2, s3⟩ := slideEdge_val n1 e ch m L hn1 hel heb hev hL hm hch
    have hL2 : L / 4 + ch * 4 ^ (n1 - 1) < 4 ^ n1 := by
      have h1 : L / 4 < 4 ^ (n1 - 1) := by
        rw [Nat.div_lt_iff_lt_mul (by omega : (0:Nat) < 4)]
        calc L < 4 ^ n1 := hL
          _ = 4 ^ (n1 - 1) * 4 := by
              rw [← pow_succ]
              congr 1
              omega
      have h2 : (4 : Nat) ^ n1 = 4 ^ (n1 - 1) * 4 := by
        rw [← pow_succ]
        congr 1
        omega
      have h3 : ch * 4 ^ (n1 - 1) ≤ 3 * 4 ^ (n1 - 1) :=
        Nat.mul_le_mul_right _ (by omega)
      omega
    simp only [slideRun, List.mem_cons] at he2
    rcases he2 with h1 | h1
    · rw [h1]
      apply edgeMult_of_val (slideEdge n1 e ch m) (L / 4 + ch * 4 ^ (n1 - 1))
        (32 * wordsPerEdge n1 - 2 * n1) m ?_ s3 ?_ hm
      · intro hcon
        rw [hcon] at s1
        obtain ⟨hW1, hW2⟩ := wordsPerEdge_bounds n1
        simp at s1
        omega
      · obtain ⟨hW1, hW2⟩ := wordsPerEdge_bounds n1
        omega
    · exact ih (slideEdge n1 e ch m) (L / 4 + ch * 4 ^ (n1 - 1))
        (fun x hx => hcs x (by simp [hx])) s1 s2 s3 hL2 e2 h1

/-- Claim C2: for a contig whose bases are valid two-bit symbols, every edge
emitted for it carries the multiplicity
`min(MULTI_MAX, round(((E·(E+1)/W) + (M/W)·I) · m_k · k / ((k+s+1)·n')))` of
§4.3 (stated from the spec as `rescaleSpec`), and a contig with
`n' = L - (k+s+1) + 1 ≤ 0` produces no edges at all. -/
theorem c2_rescaled_multiplicity (kk st : Nat) (c : List Nat) (mPrev : ℚ)
    (hb : ∀ b ∈ c, b < 4) :
    (c.length < kk + st + 1 → contigEdges kk st c mPrev = []) ∧
    ∀ e ∈ contigEdges kk st c mPrev, edgeMult e = rescaleSpec kk st c.length mPrev := by
  constructor
  · intro hlen
    simp only [contigEdges]
    rw [if_pos hlen]
  · intro e he
    rw [← rescaleMult_eq_spec]
    by_cases hlen : c.length < kk + st + 1
    · simp only [contigEdges] at he
      rw [if_pos hlen] at he
      simp at he
    · simp only [contigEdges] at he
      rw [if_neg hlen] at he
      have hm : rescaleMult kk st c.length mPrev < 2 ^ 16 := by
        have h1 : rescaleMult kk st c.length mPrev ≤ kMaxMulti := by
          simp only [rescaleMult]
          exact min_le_right _ _
        simp only [kMaxMulti] at h1
        omega
      have htlen : (c.take (kk + st + 1)).length = kk + st + 1 := by
        rw [List.length_take]
        omega
      have htb : ∀ b ∈ c.take (kk + st + 1), b < 4 :=
        fun b hbm => hb b (List.mem_of_mem_take hbm)
      obtain ⟨a1, a2, a3⟩ := assembleEdge_val (kk + st + 1) (c.take (kk + st + 1))
        (rescaleMult kk st c.length mPrev) htlen htb hm
      obtain ⟨hW1, hW2⟩ := wordsPerEdge_bounds (kk + st + 1)
      have hd16 : 16 ≤ 32 * wordsPerEdge (kk + st + 1) - 2 * (kk + st + 1) := by omega
      have hLlt : baseVal 4 (c.take (kk + st + 1)).reverse < 4 ^ (kk + st + 1) := by
        have := baseVal_lt 4 (c.take (kk + st + 1)).reverse (by omega)
          (fun x hx => htb x (List.mem_reverse.1 hx))
        rwa [List.length_reverse, htlen] at this
      rcases List.mem_cons.1 he with h1 | h1
      · rw [h1]
        apply edgeMult_of_val _ (baseVal 4 (c.take (kk + st + 1)).reverse)
          (32 * wordsPerEdge (kk + st + 1) - 2 * (kk + st + 1)) _ ?_ a3 hd16 hm
        intro hcon
        rw [hcon] at a1
        simp at a1
        omega
      · exact slideRun_mem_mult (kk + st + 1) (rescaleMult kk st c.length mPrev)
          (by omega) hm (c.drop (kk + st + 1)) _ _
          (fun x hx => hb x (List.mem_of_mem_drop hx)) a1 a2 a3 hLlt e h1

theorem c2_rescaled_multiplicity_witness :
    (([1, 2, 3] : List Nat).length < 1 + 0 + 1 → contigEdges 1 0 [1, 2, 3] 2 = []) ∧
    ∀ e ∈ contigEdges 1 0 [1, 2, 3] 2,
      edgeMult e = rescaleSpec 1 0 ([1, 2, 3] : List Nat).length 2 :=
  c2_rescaled_multiplicity 1 0 [1, 2, 3] 2 (by decide)

-- DEV AREA 12

end IterateEdges
